import Mathlib

/-!
Verification of the prompt-orchestration and response-parsing core of the
`ActionnableQuestionClient` repository (`src/app.py`), shallowly embedded
over `List Char`.

Python's string functions are modelled character by character:
`str.strip` / `str.rstrip` remove the characters for which
`Py_UNICODE_ISSPACE` holds, `str.splitlines` splits at the Unicode line
boundaries, and `re.sub` with the concrete patterns of the source
(`https?://\S+`, `www\.\S+`, `[ \t]+`, `\n{3,}`, `:online` replacement)
is implemented as the corresponding left-to-right, non-overlapping,
greedy scan.  The character classes `\d` and `\w` used by the question
parser are modelled on the ASCII range.
-/

namespace AQC

/-- Text is modelled as a list of characters. -/
abbrev Text := List Char

/-- The characters for which Python's `str.isspace` (and the `\s` class of
the `re` module) holds. -/
def pyIsSpace (c : Char) : Bool :=
  c == ' ' || c == '\t' || c == '\n' || c == '\x0b' || c == '\x0c' || c == '\r' ||
  c == '\x1c' || c == '\x1d' || c == '\x1e' || c == '\x1f' || c == '\x85' ||
  c == '\xa0' || c == '\u1680' || c == '\u2000' || c == '\u2001' || c == '\u2002' ||
  c == '\u2003' || c == '\u2004' || c == '\u2005' || c == '\u2006' || c == '\u2007' ||
  c == '\u2008' || c == '\u2009' || c == '\u200a' || c == '\u2028' || c == '\u2029' ||
  c == '\u202f' || c == '\u205f' || c == '\u3000'

/-- The line-boundary characters of Python's `str.splitlines`
(`\r\n` is handled separately by the splitting function). -/
def pyIsLineBreak (c : Char) : Bool :=
  c == '\n' || c == '\r' || c == '\x0b' || c == '\x0c' ||
  c == '\x1c' || c == '\x1d' || c == '\x1e' || c == '\x85' ||
  c == '\u2028' || c == '\u2029'

/-- Horizontal whitespace as matched by the `[ \t]` class in `normalize`. -/
def isHWS (c : Char) : Bool :=
  c == ' ' || c == '\t'

/-- ASCII decimal digit, modelling the `\d` class of the parser's patterns. -/
def isDigitC (c : Char) : Bool :=
  '0' ≤ c && c ≤ '9'

/-- ASCII word character, modelling the `\w` class used by the `\b`
boundary of the block-splitting pattern. -/
def isWordC (c : Char) : Bool :=
  ('0' ≤ c && c ≤ '9') || ('a' ≤ c && c ≤ 'z') || ('A' ≤ c && c ≤ 'Z') || c == '_'

/-- `isPre p s` holds when `p` is an initial segment of `s`. -/
def isPre : Text → Text → Bool
  | [], _ => true
  | _ :: _, [] => false
  | a :: as, b :: bs => a == b && isPre as bs

/-- `occursB p s` holds when `p` appears as a contiguous substring of `s`. -/
def occursB (p : Text) : Text → Bool
  | [] => p.isEmpty
  | c :: rest => isPre p (c :: rest) || occursB p rest

/-- Greedy `\S+` at the start of `s`: the remainder after the match, or
`none` when no non-space character is present at the start. -/
def urlTail (s : Text) : Option Text :=
  match s with
  | [] => none
  | c :: rest =>
      if pyIsSpace c then none
      else some (rest.dropWhile (fun d => !(pyIsSpace d)))

/-- Remainder after a match of `https?://\S+` at the start of `s`, if any. -/
def matchH (s : Text) : Option Text :=
  if isPre ("http://".toList) s then urlTail (s.drop 7)
  else if isPre ("https://".toList) s then urlTail (s.drop 8)
  else none

/-- Remainder after a match of `www\.\S+` at the start of `s`, if any. -/
def matchW (s : Text) : Option Text :=
  if isPre ("www.".toList) s then urlTail (s.drop 4)
  else none

/-- Scanner for `re.sub(<pattern>, "", text)` for a pattern of the form
`<prefix>\S+`, given by its start matcher `m`.  The flag records whether
the scan is inside a matched token (every match of such a pattern extends
exactly to the next whitespace character, so dropping a match is dropping
the rest of the current non-space run). -/
def subAux (m : Text → Option Text) : Bool → Text → Text
  | _, [] => []
  | true, c :: rest =>
      if pyIsSpace c then c :: subAux m false rest
      else subAux m true rest
  | false, c :: rest =>
      if (m (c :: rest)).isSome then subAux m true rest
      else c :: subAux m false rest

/-- `re.sub(r"https?://\S+", "", text)`. -/
def stripHttp (s : Text) : Text :=
  subAux matchH false s

/-- `re.sub(r"www\.\S+", "", text)`. -/
def stripWww (s : Text) : Text :=
  subAux matchW false s

/-- `strip_urls` from `src/app.py`. -/
def strip_urls (text : Text) : Text :=
  stripWww (stripHttp text)

/-- Scanner for `re.sub(r"[ \t]+", " ", text)`; the flag records whether
the scan is inside a run of spaces and tabs (whose single replacement
space has already been emitted). -/
def collapseSpacesAux : Bool → Text → Text
  | _, [] => []
  | inRun, c :: rest =>
      if isHWS c then
        if inRun then collapseSpacesAux true rest
        else ' ' :: collapseSpacesAux true rest
      else c :: collapseSpacesAux false rest

/-- `re.sub(r"[ \t]+", " ", text)`. -/
def collapseSpaces (s : Text) : Text :=
  collapseSpacesAux false s

/-- Replacement text for a run of `k` consecutive newlines under
`re.sub(r"\n{3,}", "\n\n", text)`. -/
def nlRun (k : Nat) : Text :=
  if 3 ≤ k then ['\n', '\n'] else List.replicate k '\n'

/-- Scanner for `re.sub(r"\n{3,}", "\n\n", text)`; `k` counts the pending
newline run. -/
def collapseNLAux (k : Nat) : Text → Text
  | [] => nlRun k
  | c :: rest =>
      if c == '\n' then collapseNLAux (k + 1) rest
      else nlRun k ++ c :: collapseNLAux 0 rest

/-- `re.sub(r"\n{3,}", "\n\n", text)`. -/
def collapseNewlines (s : Text) : Text :=
  collapseNLAux 0 s

/-- Python `str.rstrip()`. -/
def pyRstrip (l : Text) : Text :=
  (l.reverse.dropWhile pyIsSpace).reverse

/-- Python `str.strip()`. -/
def pyStrip (s : Text) : Text :=
  ((s.dropWhile pyIsSpace).reverse.dropWhile pyIsSpace).reverse

/-- The worker of Python `str.splitlines`: `cur` is the reversed current
line. -/
def splitGo (cur : Text) : Text → List Text
  | [] => [cur.reverse]
  | '\r' :: '\n' :: [] => [cur.reverse]
  | '\r' :: '\n' :: c :: rest => cur.reverse :: splitGo [] (c :: rest)
  | '\r' :: [] => [cur.reverse]
  | '\r' :: c :: rest => cur.reverse :: splitGo [] (c :: rest)
  | c :: rest =>
      if pyIsLineBreak c then
        match rest with
        | [] => [cur.reverse]
        | d :: rest2 => cur.reverse :: splitGo [] (d :: rest2)
      else splitGo (c :: cur) rest

/-- Python `str.splitlines()`. -/
def pySplitlines (s : Text) : List Text :=
  match s with
  | [] => []
  | _ :: _ => splitGo [] s

/-- Python `"\n".join(lines)`. -/
def joinN : List Text → Text
  | [] => []
  | [l] => l
  | l :: l2 :: ls => l ++ '\n' :: joinN (l2 :: ls)

/-- `normalize` from `src/app.py`. -/
def normalize (text : Text) : Text :=
  let t1 := strip_urls text
  let t2 := collapseSpaces t1
  let t3 := collapseNewlines t2
  let lines := (pySplitlines t3).map pyRstrip
  pyStrip (joinN lines) ++ ['\n']

/-- Single left-to-right pass of Python `str.replace(":online", "")`. -/
def removeOnline : Text → Text
  | ':' :: 'o' :: 'n' :: 'l' :: 'i' :: 'n' :: 'e' :: rest => removeOnline rest
  | c :: rest => c :: removeOnline rest
  | [] => []

/-- `model_name` from `src/app.py`. -/
def model_name (base : Text) (online : Bool) : Text :=
  let b := removeOnline (pyStrip base)
  if online then b ++ (":online".toList) else b

/-- The lookahead `(?=Q\d+\b)`: a `Q`, one or more digits, then a word
boundary. -/
def lookQ : Text → Bool
  | 'Q' :: rest =>
      (!(rest.takeWhile isDigitC).isEmpty) &&
      (match rest.dropWhile isDigitC with
       | [] => true
       | c :: _ => !isWordC c)
  | _ => false

/-- The worker of `re.split(r"\n(?=Q\d+\b)", s)`. -/
def splitNQgo (cur : Text) : Text → List Text
  | [] => [cur.reverse]
  | '\n' :: rest =>
      if lookQ rest then cur.reverse :: splitNQgo [] rest
      else splitNQgo ('\n' :: cur) rest
  | c :: rest => splitNQgo (c :: cur) rest

/-- `re.split(r"\n(?=Q\d+\b)", s)`. -/
def splitNQ (s : Text) : List Text :=
  splitNQgo [] s

/-- `re.match(r"^Q\d+", ln)`: does the line start with `Q` and a digit? -/
def matchQid : Text → Bool
  | c :: d :: _ => c == 'Q' && isDigitC d
  | _ => false

/-- First whitespace-delimited token of `t`, when one exists:
`t.split()[0]` in the source. -/
def firstTokO (t : Text) : Option Text :=
  match t.dropWhile pyIsSpace with
  | [] => none
  | c :: r => some (c :: r.takeWhile (fun d => !(pyIsSpace d)))

/-- The seven label alternatives of the parser's field pattern, in the
order they appear in the regex. -/
def labels : List Text :=
  [("Axis".toList), ("Title".toList), ("Horizon".toList), ("Question".toList),
   ("Why it matters".toList), ("Decision link".toList), ("Signal hints".toList)]

/-- First label alternative matching at the start of `t` (followed by a
colon); returns the label and the value with leading `\s*` removed. -/
def findLabel : List Text → Text → Option (Text × Text)
  | [], _ => none
  | L :: Ls, t =>
      if isPre (L ++ [':']) t then
        some (L, (t.drop (L.length + 1)).dropWhile pyIsSpace)
      else findLabel Ls t

/-- `re.match(r"^(Axis|Title|Horizon|Question|Why it matters|Decision link|Signal hints):\s*(.*)$", t)`. -/
def matchLabel (t : Text) : Option (Text × Text) :=
  findLabel labels t

/-- A parsed question record: the eight fixed fields of `parse_questions`. -/
structure QRecord where
  id : Text
  axis : Text
  title : Text
  horizon : Text
  question : Text
  why_it_matters : Text
  decision_link : Text
  signals : Text
deriving DecidableEq

/-- The field targeted by a matched label. -/
inductive FieldTag where
  | axis
  | title
  | horizon
  | question
  | why_it_matters
  | decision_link
  | signals
deriving DecidableEq

/-- The `map_key` dictionary of `parse_questions`; the lookup is partial,
as in the source. -/
def map_key (l : Text) : Option FieldTag :=
  if l = ("Axis".toList) then some FieldTag.axis
  else if l = ("Title".toList) then some FieldTag.title
  else if l = ("Horizon".toList) then some FieldTag.horizon
  else if l = ("Question".toList) then some FieldTag.question
  else if l = ("Why it matters".toList) then some FieldTag.why_it_matters
  else if l = ("Decision link".toList) then some FieldTag.decision_link
  else if l = ("Signal hints".toList) then some FieldTag.signals
  else none

/-- Store a value in the field named by the tag. -/
def setField (r : QRecord) (f : FieldTag) (v : Text) : QRecord :=
  match f with
  | FieldTag.axis => { r with axis := v }
  | FieldTag.title => { r with title := v }
  | FieldTag.horizon => { r with horizon := v }
  | FieldTag.question => { r with question := v }
  | FieldTag.why_it_matters => { r with why_it_matters := v }
  | FieldTag.decision_link => { r with decision_link := v }
  | FieldTag.signals => { r with signals := v }

/-- The record whose fields are all empty strings. -/
def item0 : QRecord :=
  ⟨[], [], [], [], [], [], [], []⟩

/-- One iteration of the line loop of `parse_questions`; `none` models a
raised `KeyError` or `IndexError`. -/
def processLine (item : QRecord) (ln : Text) : Option QRecord :=
  if matchQid ln then
    (firstTokO (pyStrip ln)).map (fun tok => { item with id := tok })
  else
    match matchLabel (pyStrip ln) with
    | some (L, v) => (map_key L).map (fun f => setField item f (pyStrip v))
    | none => some item

/-- The line loop of `parse_questions` over one block. -/
def buildItem (item : QRecord) : List Text → Option QRecord
  | [] => some item
  | ln :: lns =>
      match processLine item ln with
      | some item2 => buildItem item2 lns
      | none => none

/-- `b.strip().startswith("Q")`. -/
def startsQ (b : Text) : Bool :=
  isPre (['Q']) (pyStrip b)

/-- One iteration of the block loop of `parse_questions`: `none` is a
raised error, `some none` a skipped or dropped block, `some (some r)` an
emitted record. -/
def processBlock (b : Text) : Option (Option QRecord) :=
  if startsQ b then
    match buildItem item0 (pySplitlines b) with
    | none => none
    | some it =>
        some (if it.id.isEmpty || it.question.isEmpty then none else some it)
  else some none

/-- The block loop of `parse_questions`. -/
def parseBlocks : List Text → Option (List QRecord)
  | [] => some []
  | b :: bs =>
      match processBlock b with
      | none => none
      | some none => parseBlocks bs
      | some (some r) => (parseBlocks bs).map (fun rest => r :: rest)

/-- `parse_questions` from `src/app.py`; `none` models a raised error. -/
def parse_questions (raw : Text) : Option (List QRecord) :=
  parseBlocks (splitNQ (pyStrip raw))

/-- The results of one pipeline run: the three stage outputs. -/
structure RunResult where
  research : Text
  draft : Text
  final : Text
deriving DecidableEq

/-- The pipeline run block of `src/app.py` (the `try`/`except` around the
three completion calls).  The remote completion client is abstracted as
the outcome of the research call and outcome functions of the generate
and refresh calls, each fed the previous stage's normalized output; a
failure anywhere is surfaced as the single caught error. -/
def runPipeline (callResearch : Except Text Text)
    (callGenerate : Text → Except Text Text)
    (callRefresh : Text → Except Text Text)
    (run_refresh : Bool) : Except Text RunResult :=
  match callResearch with
  | Except.error e => Except.error e
  | Except.ok r0 =>
    let research := normalize r0
    match callGenerate research with
    | Except.error e => Except.error e
    | Except.ok d0 =>
      let draft := normalize d0
      let final_text := draft
      if run_refresh then
        match callRefresh draft with
        | Except.error e => Except.error e
        | Except.ok f0 => Except.ok ⟨research, draft, normalize f0⟩
      else Except.ok ⟨research, draft, final_text⟩

/-- The derivation rule exactly as the spec words it: strip an existing
`:online` suffix from the base name, then append `:online` when the flag
is set. -/
def deriveModelIdSpec (base : Text) (online : Bool) : Text :=
  let b := if (":online".toList).isSuffixOf base then base.take (base.length - 7) else base
  if online then b ++ (":online".toList) else b

/-- Whether the pattern of a start matcher matches anywhere in the text. -/
def hasMatchAt (m : Text → Option Text) : Text → Bool
  | [] => false
  | c :: rest => (m (c :: rest)).isSome || hasMatchAt m rest

/-- All characters of `p` are non-whitespace. -/
def allNS (p : Text) : Prop :=
  ∀ a ∈ p, pyIsSpace a = false

/-- Split at every newline, keeping all (possibly empty) segments: the
head segment and the later segments. -/
def splitNl1 : Text → Text × List Text
  | [] => ([], [])
  | c :: rest =>
      if c = '\n' then ([], (splitNl1 rest).1 :: (splitNl1 rest).2)
      else (c :: (splitNl1 rest).1, (splitNl1 rest).2)

/-- All segments of a text split at every newline. -/
def splitOnNl (t : Text) : List Text :=
  (splitNl1 t).1 :: (splitNl1 t).2

/-- Semi-normal form: the invariants that hold of every `normalize` output
and are preserved by a further newline collapse — no URL-pattern match, no
tab, no double space, line breaks are plain newlines only, no whitespace
immediately before a newline, and the text is a block with non-whitespace
first and last characters followed by one final newline. -/
def SemiNF (z : Text) : Prop :=
  hasMatchAt matchH z = false ∧
  hasMatchAt matchW z = false ∧
  '\t' ∉ z ∧
  occursB ([' ', ' ']) z = false ∧
  (∀ c ∈ z, pyIsLineBreak c = true → c = '\n') ∧
  (∀ c, pyIsSpace c = true → c ≠ '\n' → occursB ([c, '\n']) z = false) ∧
  ∃ w, z = w ++ ['\n'] ∧
    (∀ d, w.head? = some d → pyIsSpace d = false) ∧
    (∀ d, w.getLast? = some d → pyIsSpace d = false)

theorem isPre_nil (s : Text) : isPre [] s = true := by
  cases s <;> rfl

theorem isPre_append (p s t : Text) (h : isPre p s = true) : isPre p (s ++ t) = true := by
  induction p generalizing s with
  | nil => exact isPre_nil _
  | cons a as ih =>
    cases s with
    | nil => simp [isPre] at h
    | cons b bs =>
      simp only [isPre, Bool.and_eq_true, beq_iff_eq] at h
      simp only [List.cons_append, isPre, Bool.and_eq_true, beq_iff_eq]
      exact ⟨h.1, ih bs h.2⟩

theorem isPre_refl (s : Text) : isPre s s = true := by
  induction s with
  | nil => rfl
  | cons a as ih => simp [isPre, ih]

theorem occursB_cons (p : Text) (c : Char) (rest : Text) :
    occursB p (c :: rest) = (isPre p (c :: rest) || occursB p rest) := rfl

theorem occursB_of_tail (p : Text) (c : Char) (rest : Text)
    (h : occursB p rest = true) : occursB p (c :: rest) = true := by
  simp [occursB_cons, h]

theorem occursB_of_isPre (p s : Text) (h : isPre p s = true) : occursB p s = true := by
  cases s with
  | nil =>
    cases p with
    | nil => rfl
    | cons a as => simp [isPre] at h
  | cons c rest => simp [occursB_cons, h]

/-- An occurrence in a suffix is an occurrence. -/
theorem occursB_of_suffix (p : Text) (s t : Text)
    (h : occursB p t = true) : occursB p (s ++ t) = true := by
  induction s with
  | nil => exact h
  | cons c cs ih => exact occursB_of_tail _ _ _ ih

/-- An occurrence in a prefix is an occurrence. -/
theorem occursB_of_pre (p s t : Text) (h : occursB p s = true) :
    occursB p (s ++ t) = true := by
  induction s with
  | nil => cases p with
    | nil => simp [occursB] at h ⊢; cases t with
      | nil => simp [occursB]
      | cons c cs => simp [occursB_cons, isPre_nil]
    | cons a as => simp [occursB, List.isEmpty] at h
  | cons c cs ih =>
    simp only [occursB_cons, Bool.or_eq_true] at h
    rcases h with h | h
    · exact occursB_of_isPre _ _ (by simpa using isPre_append _ _ t h)
    · exact occursB_of_tail _ _ _ (ih h)

/-- Occurrences in a `dropWhile` result are occurrences in the original list. -/
theorem occursB_of_dropWhile (p : Text) (q : Char → Bool) (s : Text)
    (h : occursB p (s.dropWhile q) = true) : occursB p s = true := by
  induction s with
  | nil => simpa [List.dropWhile] using h
  | cons c rest ih =>
    by_cases hq : q c = true
    · simp only [List.dropWhile, hq] at h
      exact occursB_of_tail _ _ _ (ih h)
    · simpa [List.dropWhile, Bool.of_not_eq_true hq] using h

example : occursB ([' ', 'b']) ("a bc".toList) = true := by decide

example : occursB ("bd".toList) ("a bc".toList) = false := by decide

example : pyIsSpace 'a' = false := by decide

example : pyIsSpace '\xa0' = true := by decide

theorem length_dropWhile_le (q : Char → Bool) (l : Text) :
    (l.dropWhile q).length ≤ l.length :=
  (List.dropWhile_sublist q).length_le

example : pySplitlines ("ab\ncd\n".toList) = [("ab".toList), ("cd".toList)] := by decide

example : pySplitlines ("\n".toList) = [[]] := by decide

example : pySplitlines ([] : Text) = [] := by decide

example : pySplitlines ("a\r\nb".toList) = [("a".toList), ("b".toList)] := by decide

example : stripHttp ("see http://x.y/z now".toList) = ("see  now".toList) := by decide

example : stripWww ("see www.x.y now".toList) = ("see  now".toList) := by decide

example : collapseSpaces ("a  \t b".toList) = ("a b".toList) := by decide

example : collapseNewlines ("a\n\n\n\nb".toList) = ("a\n\nb".toList) := by decide

example : normalize ("  hello   world\n\n\n\nsee http://x.y/z now\n".toList) =
    ("hello world\n\nsee now\n".toList) := by decide

example : normalize ("a \n \n \nb".toList) = ("a\n\n\nb\n".toList) := by decide

example : normalize (normalize ("a \n \n \nb".toList)) = ("a\n\nb\n".toList) := by decide

example : model_name ("foo:online".toList) true = ("foo:online".toList) := by decide

example : model_name ("a:online:b".toList) false = ("a:b".toList) := by decide

example : parse_questions ("Q1\nAxis: A\nTitle: T\nHorizon: 12m\nQuestion: Q?\nWhy it matters: W\nDecision link: D\nSignal hints: S".toList) =
    some [⟨("Q1".toList), ("A".toList), ("T".toList), ("12m".toList), ("Q?".toList),
          ("W".toList), ("D".toList), ("S".toList)⟩] := by decide

example : parse_questions ("Q1\nAxis: A".toList) = some [] := by decide

example : parse_questions ("Q1\nQuestion: a\nQ2x".toList) =
    some [⟨("Q2x".toList), [], [], [], ("a".toList), [], [], []⟩] := by decide

example : parse_questions ("intro\n\nQ1\nQuestion: a\n\nQ2\nQuestion: b".toList) =
    some [⟨("Q1".toList), [], [], [], ("a".toList), [], [], []⟩,
          ⟨("Q2".toList), [], [], [], ("b".toList), [], [], []⟩] := by decide

/-- C2: if the research-stage call fails, the generate and refresh stages
are never invoked (the outcome does not depend on their call functions at
all), no outputs are produced, and the pipeline surfaces exactly the one
research error. -/
theorem research_failure_short_circuits (e : Text)
    (callGenerate callRefresh : Text → Except Text Text) (run_refresh : Bool) :
    runPipeline (Except.error e) callGenerate callRefresh run_refresh = Except.error e := rfl

/-- C4: parsing the single well-formed block of the spec yields exactly
one record with the eight expected field values. -/
theorem parse_wellformed_block :
    parse_questions ("Q1\nAxis: A\nTitle: T\nHorizon: 12m\nQuestion: Q?\nWhy it matters: W\nDecision link: D\nSignal hints: S".toList) =
      some [{ id := ("Q1".toList), axis := ("A".toList), title := ("T".toList),
              horizon := ("12m".toList), question := ("Q?".toList),
              why_it_matters := ("W".toList), decision_link := ("D".toList),
              signals := ("S".toList) }] := by decide

/-- C6: when the refresh stage is declined, the final output is exactly
the draft output. -/
theorem refresh_declined_final_eq_draft (cR : Except Text Text)
    (cG cF : Text → Except Text Text) (res : RunResult)
    (h : runPipeline cR cG cF false = Except.ok res) :
    res.final = res.draft := by
  cases cR with
  | error e => simp [runPipeline] at h
  | ok r0 =>
    simp only [runPipeline] at h
    cases hG : cG (normalize r0) with
    | error e => rw [hG] at h; simp at h
    | ok d0 =>
      rw [hG] at h
      simp only [Bool.false_eq_true, if_false, Except.ok.injEq] at h
      rw [← h]

/-- Witness for C6 at a concrete run. -/
theorem refresh_declined_final_eq_draft_witness :
    (RunResult.mk ("r\n".toList) ("d\n".toList) ("d\n".toList)).final =
      (RunResult.mk ("r\n".toList) ("d\n".toList) ("d\n".toList)).draft :=
  refresh_declined_final_eq_draft (Except.ok ("r".toList))
    (fun _ => Except.ok ("d".toList)) (fun _ => Except.ok ("f".toList))
    (RunResult.mk ("r\n".toList) ("d\n".toList) ("d\n".toList)) (by rfl)

theorem removeOnline_eq_self {s : Text} (h : occursB (":online".toList) s = false) :
    removeOnline s = s := by
  induction s using removeOnline.induct with
  | case1 rest ih =>
    exfalso
    have : isPre (":online".toList) (':' :: 'o' :: 'n' :: 'l' :: 'i' :: 'n' :: 'e' :: rest) = true := by
      simp [isPre]
    rw [occursB_of_isPre _ _ this] at h
    cases h
  | case2 c rest hne ih =>
    have h2 : occursB (":online".toList) rest = false := by
      rw [occursB_cons] at h
      exact (Bool.or_eq_false_iff.mp h).2
    rw [removeOnline, ih h2]
    exact hne
  | case3 => rfl

/-- C3 counterexample: the derived identifier is not the base name with a
`:online` suffix stripped — on `"a:online:b"` with the flag off the code
removes the interior occurrence and returns `"a:b"`, while the claimed
rule would leave the name unchanged. -/
theorem model_name_not_suffix_rule :
    model_name ("a:online:b".toList) false = ("a:b".toList) ∧
    deriveModelIdSpec ("a:online:b".toList) false = ("a:online:b".toList) ∧
    model_name ("a:online:b".toList) false ≠
      deriveModelIdSpec ("a:online:b".toList) false := by
  refine ⟨by decide, by decide, by decide⟩

/-- C3 amended: the code trims surrounding whitespace and removes every
occurrence of `:online` in one left-to-right pass (not only a suffix),
then appends `:online` exactly when the flag is set; the three examples
cited by the claim hold. -/
theorem model_name_characterization :
    (model_name ("foo:online".toList) true = ("foo:online".toList) ∧
     model_name ("foo".toList) false = ("foo".toList) ∧
     model_name ("foo:online".toList) false = ("foo".toList)) ∧
    (∀ base : Text,
      model_name base true = model_name base false ++ (":online".toList)) ∧
    (∀ base : Text, occursB (":online".toList) (pyStrip base) = false →
      model_name base false = pyStrip base) := by
  refine ⟨⟨by decide, by decide, by decide⟩, ?_, ?_⟩
  · intro base
    simp [model_name]
  · intro base h
    simp [model_name, removeOnline_eq_self h]

/-- Witness for the amended C3 at a concrete base name. -/
theorem model_name_characterization_witness :
    model_name ("bar".toList) false = pyStrip ("bar".toList) :=
  model_name_characterization.2.2 ("bar".toList) (by decide)

theorem dropWhile_append_last {q : Char → Bool} {c : Char} (l : Text) (h : q c = false) :
    (l ++ [c]).dropWhile q = l.dropWhile q ++ [c] := by
  induction l with
  | nil => simp [List.dropWhile, h]
  | cons a as ih =>
    by_cases ha : q a = true
    · simpa [List.dropWhile_cons_of_pos ha] using ih
    · rw [List.cons_append, List.dropWhile_cons_of_neg ha, List.dropWhile_cons_of_neg ha]
      simp

theorem pyStrip_cons {c : Char} (r : Text) (h : pyIsSpace c = false) :
    pyStrip (c :: r) = c :: pyRstrip r := by
  unfold pyStrip pyRstrip
  rw [List.dropWhile_cons_of_neg (by simp [h]), List.reverse_cons,
      dropWhile_append_last _ h, List.reverse_append]
  simp

theorem findLabel_mem {Ls : List Text} {t L v : Text}
    (h : findLabel Ls t = some (L, v)) : L ∈ Ls := by
  induction Ls with
  | nil => simp [findLabel] at h
  | cons L0 Ls ih =>
    by_cases hp : isPre (L0 ++ [':']) t = true
    · rw [findLabel, if_pos hp] at h
      simp only [Option.some.injEq, Prod.mk.injEq] at h
      rw [← h.1]
      exact List.mem_cons_self _ _
    · rw [findLabel, if_neg hp] at h
      exact List.mem_cons_of_mem _ (ih h)

theorem map_key_of_mem {L : Text} (h : L ∈ labels) : (map_key L).isSome = true := by
  fin_cases h <;> decide

theorem setField_id (r : QRecord) (f : FieldTag) (v : Text) :
    (setField r f v).id = r.id := by
  cases f <;> rfl

theorem processLine_isSome (item : QRecord) (ln : Text) :
    (processLine item ln).isSome = true := by
  unfold processLine
  by_cases hq : matchQid ln = true
  · rw [if_pos hq]
    match ln, hq with
    | c :: d :: r, hq =>
      simp only [matchQid, Bool.and_eq_true, beq_iff_eq] at hq
      rw [hq.1, pyStrip_cons _ (by decide)]
      have hd : List.dropWhile pyIsSpace ('Q' :: pyRstrip (d :: r)) = 'Q' :: pyRstrip (d :: r) :=
        List.dropWhile_cons_of_neg (by decide)
      simp [firstTokO, hd]
  · rw [if_neg hq]
    cases hm : matchLabel (pyStrip ln) with
    | none => rfl
    | some Lv =>
      obtain ⟨L, v⟩ := Lv
      have hmem : L ∈ labels := findLabel_mem hm
      simp only [hm, Option.isSome_map']
      exact map_key_of_mem hmem

theorem buildItem_isSome (lines : List Text) (item : QRecord) :
    (buildItem item lines).isSome = true := by
  induction lines generalizing item with
  | nil => rfl
  | cons ln lns ih =>
    have heq : buildItem item (ln :: lns) =
        match processLine item ln with
        | some item2 => buildItem item2 lns
        | none => none := rfl
    cases hp : processLine item ln with
    | none =>
      have := processLine_isSome item ln
      rw [hp] at this
      cases this
    | some item2 =>
      rw [heq, hp]
      exact ih item2

theorem processBlock_isSome (b : Text) : (processBlock b).isSome = true := by
  unfold processBlock
  by_cases hs : startsQ b = true
  · rw [if_pos hs]
    cases hbi : buildItem item0 (pySplitlines b) with
    | none =>
      have := buildItem_isSome (pySplitlines b) item0
      rw [hbi] at this
      cases this
    | some it => rfl
  · rw [if_neg hs]
    rfl

theorem parseBlocks_isSome (bs : List Text) : (parseBlocks bs).isSome = true := by
  induction bs with
  | nil => rfl
  | cons b bs ih =>
    have heq : parseBlocks (b :: bs) =
        match processBlock b with
        | none => none
        | some none => parseBlocks bs
        | some (some r) => (parseBlocks bs).map (fun rest => r :: rest) := rfl
    cases hpb : processBlock b with
    | none =>
      have := processBlock_isSome b
      rw [hpb] at this
      cases this
    | some o =>
      cases o with
      | none => rw [heq, hpb]; exact ih
      | some r =>
        rw [heq, hpb]
        simpa using ih

/-- C10: the question parser is total: on every input the block loop
returns a value and never raises — in particular the label-to-field
lookup succeeds for each of the seven label alternatives of the line
pattern. -/
theorem parse_questions_total :
    (∀ raw : Text, (parse_questions raw).isSome = true) ∧
    (∀ L : Text, L ∈ labels → (map_key L).isSome = true) :=
  ⟨fun _ => parseBlocks_isSome _, fun _ h => map_key_of_mem h⟩

/-- Witness for C10 at a concrete input and a concrete label. -/
theorem parse_questions_total_witness :
    (parse_questions ("free text QQ\nQ7\nQuestion: x".toList)).isSome = true ∧
    (map_key ("Signal hints".toList)).isSome = true :=
  ⟨parse_questions_total.1 _, parse_questions_total.2 ("Signal hints".toList) (by decide)⟩

theorem processBlock_emitted {b : Text} {r : QRecord}
    (h : processBlock b = some (some r)) :
    r.id.isEmpty = false ∧ r.question.isEmpty = false := by
  unfold processBlock at h
  by_cases hs : startsQ b = true
  · rw [if_pos hs] at h
    cases hbi : buildItem item0 (pySplitlines b) with
    | none => rw [hbi] at h; cases h
    | some it =>
      rw [hbi] at h
      replace h : some (if (it.id.isEmpty || it.question.isEmpty) = true
          then (none : Option QRecord) else some it) = some (some r) := h
      by_cases hg : (it.id.isEmpty || it.question.isEmpty) = true
      · rw [if_pos hg] at h; cases h
      · rw [if_neg hg] at h
        simp only [Option.some.injEq] at h
        rw [← h]
        exact Bool.or_eq_false_iff.mp (Bool.of_not_eq_true hg)
  · rw [if_neg hs] at h
    cases h

theorem parseBlocks_mem {bs : List Text} {l : List QRecord} {r : QRecord}
    (h : parseBlocks bs = some l) (hm : r ∈ l) :
    r.id.isEmpty = false ∧ r.question.isEmpty = false := by
  induction bs generalizing l with
  | nil =>
    simp only [parseBlocks, Option.some.injEq] at h
    rw [← h] at hm
    cases hm
  | cons b bs ih =>
    have heq : parseBlocks (b :: bs) =
        match processBlock b with
        | none => none
        | some none => parseBlocks bs
        | some (some r0) => (parseBlocks bs).map (fun rest => r0 :: rest) := rfl
    rw [heq] at h
    cases hpb : processBlock b with
    | none => rw [hpb] at h; cases h
    | some o =>
      cases o with
      | none =>
        rw [hpb] at h
        exact ih h hm
      | some r0 =>
        rw [hpb] at h
        cases hrec : parseBlocks bs with
        | none => rw [hrec] at h; cases h
        | some rest =>
          rw [hrec] at h
          simp only [Option.map_some', Option.some.injEq] at h
          rw [← h] at hm
          cases hm with
          | head => exact processBlock_emitted hpb
          | tail _ hm2 => exact ih hrec hm2

/-- C5: every emitted record has a non-empty id and a non-empty question;
a retained block whose built record has both non-empty is emitted; and the
block missing its `Question:` line is dropped silently (the parser
returns an empty list, not an error). -/
theorem parse_emits_iff_id_and_question :
    (∀ raw : Text, ∀ l : List QRecord, ∀ r : QRecord,
       parse_questions raw = some l → r ∈ l →
       r.id.isEmpty = false ∧ r.question.isEmpty = false) ∧
    (∀ b : Text, ∀ it : QRecord,
       startsQ b = true → buildItem item0 (pySplitlines b) = some it →
       it.id.isEmpty = false → it.question.isEmpty = false →
       processBlock b = some (some it)) ∧
    parse_questions ("Q1\nAxis: A\nTitle: T".toList) = some [] := by
  refine ⟨?_, ?_, by decide⟩
  · intro raw l r h hm
    exact parseBlocks_mem h hm
  · intro b it hs hbi hid hq
    unfold processBlock
    rw [if_pos hs, hbi]
    show some (if (it.id.isEmpty || it.question.isEmpty) = true
        then (none : Option QRecord) else some it) = some (some it)
    rw [if_neg (by simp [hid, hq])]

/-- Witness for C5 at the concrete well-formed block of the spec. -/
theorem parse_emits_iff_id_and_question_witness :
    (QRecord.mk ("Q1".toList) ("A".toList) ("T".toList) ("12m".toList) ("Q?".toList)
        ("W".toList) ("D".toList) ("S".toList)).id.isEmpty = false ∧
    (QRecord.mk ("Q1".toList) ("A".toList) ("T".toList) ("12m".toList) ("Q?".toList)
        ("W".toList) ("D".toList) ("S".toList)).question.isEmpty = false :=
  parse_emits_iff_id_and_question.1
    ("Q1\nAxis: A\nTitle: T\nHorizon: 12m\nQuestion: Q?\nWhy it matters: W\nDecision link: D\nSignal hints: S".toList)
    [QRecord.mk ("Q1".toList) ("A".toList) ("T".toList) ("12m".toList) ("Q?".toList)
        ("W".toList) ("D".toList) ("S".toList)]
    (QRecord.mk ("Q1".toList) ("A".toList) ("T".toList) ("12m".toList) ("Q?".toList)
        ("W".toList) ("D".toList) ("S".toList))
    (by decide) (by decide)

/-- C8 counterexample: in the block `Q1\nQuestion: a\nQ2x` the first line
matching `Q\d+` is `Q1`, yet the emitted record's id is `Q2x` — the later
matching line overwrote it (the line `Q2x` stays inside the block because
its digits are followed by a word character, so the block split does not
fire). -/
theorem parse_first_qid_line_does_not_win :
    parse_questions ("Q1\nQuestion: a\nQ2x".toList) =
      some [QRecord.mk ("Q2x".toList) [] [] [] ("a".toList) [] [] []] ∧
    ("Q2x".toList : Text) ≠ ("Q1".toList : Text) := by
  refine ⟨by decide, by decide⟩

theorem processLine_id_of_matchQid {item item2 : QRecord} {ln : Text}
    (hq : matchQid ln = true) (h : processLine item ln = some item2) :
    firstTokO (pyStrip ln) = some item2.id := by
  unfold processLine at h
  rw [if_pos hq] at h
  rcases Option.map_eq_some'.mp h with ⟨tok, htok, hitem⟩
  rw [htok, ← hitem]

theorem processLine_id_of_not_matchQid {item item2 : QRecord} {ln : Text}
    (hq : matchQid ln = false) (h : processLine item ln = some item2) :
    item2.id = item.id := by
  unfold processLine at h
  rw [if_neg (by simp [hq])] at h
  cases hm : matchLabel (pyStrip ln) with
  | none =>
    rw [hm] at h
    cases h
    rfl
  | some Lv =>
    obtain ⟨L, v⟩ := Lv
    rw [hm] at h
    rcases Option.map_eq_some'.mp h with ⟨f, _, hitem⟩
    rw [← hitem, setField_id]

theorem buildItem_id {lines : List Text} {item it : QRecord}
    (h : buildItem item lines = some it) :
    Option.elim ((lines.filter matchQid).getLast?) (some item.id)
      (fun l => firstTokO (pyStrip l)) = some it.id := by
  induction lines generalizing item with
  | nil =>
    cases h
    rfl
  | cons ln lns ih =>
    have heq : buildItem item (ln :: lns) =
        match processLine item ln with
        | some item2 => buildItem item2 lns
        | none => none := rfl
    rw [heq] at h
    cases hp : processLine item ln with
    | none => rw [hp] at h; cases h
    | some item2 =>
      rw [hp] at h
      by_cases hq : matchQid ln = true
      · rw [List.filter_cons_of_pos hq]
        cases hfl : lns.filter matchQid with
        | nil =>
          have hih := ih h
          rw [hfl] at hih
          simp only [List.getLast?_singleton, Option.elim]
          simp only [List.getLast?_nil, Option.elim] at hih
          rw [processLine_id_of_matchQid hq hp, hih]
        | cons f fs =>
          have hih := ih h
          rw [hfl] at hih
          rw [List.getLast?_cons_cons]
          cases hgl : (f :: fs).getLast? with
          | none =>
            rw [List.getLast?_eq_none_iff] at hgl
            cases hgl
          | some l =>
            rw [hgl] at hih
            exact hih
      · rw [List.filter_cons_of_neg (by simp [hq])]
        have hih := ih h
        rw [processLine_id_of_not_matchQid (Bool.of_not_eq_true hq) hp] at hih
        exact hih

/-- C8 amended: within a retained block, every line matching `Q\d+`
overwrites the record's id with that line's first whitespace-delimited
token, so the last such line of the block (not the first) determines the
id; lines matching neither `Q\d+` nor one of the seven label patterns
leave the record unchanged and are silently ignored. -/
theorem qid_last_line_sets_id :
    (∀ lines : List Text, ∀ item it : QRecord,
       buildItem item lines = some it →
       Option.elim ((lines.filter matchQid).getLast?) (some item.id)
         (fun l => firstTokO (pyStrip l)) = some it.id) ∧
    (∀ item : QRecord, ∀ ln : Text,
       matchQid ln = false → matchLabel (pyStrip ln) = none →
       processLine item ln = some item) := by
  constructor
  · intro lines item it h
    exact buildItem_id h
  · intro item ln hq hm
    unfold processLine
    rw [if_neg (by simp [hq]), hm]

/-- Witness for the amended C8 on the counterexample block's lines. -/
theorem qid_last_line_sets_id_witness :
    Option.elim (((["Q1".toList, "Question: a".toList, "Q2x".toList] : List Text).filter
        matchQid).getLast?) (some item0.id) (fun l => firstTokO (pyStrip l)) =
      some (QRecord.mk ("Q2x".toList) [] [] [] ("a".toList) [] [] []).id :=
  qid_last_line_sets_id.1 [("Q1".toList), ("Question: a".toList), ("Q2x".toList)]
    item0 (QRecord.mk ("Q2x".toList) [] [] [] ("a".toList) [] [] []) (by decide)

theorem isPre_iff_take {p s : Text} : isPre p s = true ↔ s.take p.length = p := by
  induction p generalizing s with
  | nil => simp [isPre_nil]
  | cons a as ih =>
    cases s with
    | nil => simp [isPre]
    | cons b bs =>
      simp only [isPre, Bool.and_eq_true, beq_iff_eq, List.length_cons, List.take_succ_cons,
        List.cons.injEq, ih]
      constructor
      · rintro ⟨h1, h2⟩; exact ⟨h1.symm, h2⟩
      · rintro ⟨h1, h2⟩; exact ⟨h1.symm, h2⟩

theorem isPre_decomp {p s : Text} (h : isPre p s = true) : s = p ++ s.drop p.length := by
  conv_lhs => rw [← List.take_append_drop p.length s]
  rw [isPre_iff_take.mp h]

theorem isPre_cancel (p q t : Text) : isPre (p ++ q) (p ++ t) = isPre q t := by
  induction p with
  | nil => rfl
  | cons a as ih => simp [isPre, ih]

theorem isPre_of_append_left {p q s : Text} (h : isPre (p ++ q) s = true) :
    isPre p s = true := by
  induction p generalizing s with
  | nil => exact isPre_nil s
  | cons a as ih =>
    cases s with
    | nil => simp [isPre] at h
    | cons b bs =>
      simp only [List.cons_append, isPre, Bool.and_eq_true] at h ⊢
      exact ⟨h.1, ih h.2⟩

theorem dropWhile_append_of_all {q : Char → Bool} {p t : Text} (h : ∀ a ∈ p, q a = true) :
    (p ++ t).dropWhile q = t.dropWhile q := by
  induction p with
  | nil => rfl
  | cons a as ih =>
    rw [List.cons_append, List.dropWhile_cons_of_pos (h a (List.mem_cons_self _ _))]
    exact ih (fun a ha => h a (List.mem_cons_of_mem _ ha))

theorem occursB_all_eq_append {ch : Char} {p a b : Text} (hp : p ≠ [])
    (hch : ch ∉ p) (ha : ∀ x ∈ a, x = ch) :
    occursB p (a ++ b) = occursB p b := by
  induction a with
  | nil => rfl
  | cons c a' ih =>
    rw [List.cons_append, occursB_cons]
    cases p with
    | nil => exact absurd rfl hp
    | cons x p2 =>
      have hxc : (x == c) = false := by
        rw [beq_eq_false_iff_ne]
        intro hcon
        apply hch
        rw [ha c (List.mem_cons_self _ _)] at hcon
        rw [hcon]
        exact List.mem_cons_self _ _
      rw [show isPre (x :: p2) (c :: (a' ++ b)) = false by simp [isPre, hxc]]
      rw [Bool.false_or]
      exact ih (fun x hx => ha x (List.mem_cons_of_mem _ hx))

theorem allNS_no_space {p : Text} (hp : allNS p) : ' ' ∉ p := by
  intro hin
  have h := hp ' ' hin
  exact absurd h (by decide)

theorem allNS_no_nl {p : Text} (hp : allNS p) : '\n' ∉ p := by
  intro hin
  have h := hp '\n' hin
  exact absurd h (by decide)

theorem isPre_append_split {p a b : Text} (h : isPre p (a ++ b) = true) :
    isPre p a = true ∨ ∃ p2, p = a ++ p2 ∧ isPre p2 b = true := by
  induction a generalizing p with
  | nil => exact Or.inr ⟨p, rfl, h⟩
  | cons c a' ih =>
    cases p with
    | nil => exact Or.inl (isPre_nil _)
    | cons x p2 =>
      simp only [List.cons_append, isPre, Bool.and_eq_true, beq_iff_eq] at h
      rcases ih h.2 with h2 | ⟨p3, hp3, hb⟩
      · exact Or.inl (by simp [isPre, h.1, h2])
      · refine Or.inr ⟨p3, ?_, hb⟩
        rw [List.cons_append, ← hp3, h.1]

theorem occursB_append_split {p a b : Text} (h : occursB p (a ++ b) = true) :
    occursB p a = true ∨ occursB p b = true ∨
      ∃ p1 p2, p = p1 ++ p2 ∧ p1 ≠ [] ∧ p2 ≠ [] ∧ isPre p2 b = true ∧
        ∃ a1, a = a1 ++ p1 := by
  induction a with
  | nil => exact Or.inr (Or.inl h)
  | cons c a' ih =>
    rw [List.cons_append, occursB_cons, Bool.or_eq_true] at h
    rcases h with h | h
    · have h' : isPre p ((c :: a') ++ b) = true := h
      rcases isPre_append_split h' with h2 | ⟨p2, hp2, hb⟩
      · exact Or.inl (occursB_of_isPre _ _ h2)
      · cases p2 with
        | nil =>
          rw [List.append_nil] at hp2
          exact Or.inl (occursB_of_isPre _ _ (by rw [hp2]; exact isPre_refl _))
        | cons y p3 =>
          exact Or.inr (Or.inr ⟨c :: a', y :: p3, hp2, by simp, by simp, hb, [], rfl⟩)
    · rcases ih h with h2 | h2 | ⟨p1, p2, hp12, hp1, hp2, hpre, a1, ha1⟩
      · exact Or.inl (occursB_of_tail _ _ _ h2)
      · exact Or.inr (Or.inl h2)
      · exact Or.inr (Or.inr ⟨p1, p2, hp12, hp1, hp2, hpre, c :: a1,
          by rw [ha1, List.cons_append]⟩)

theorem occursB_of_infix {p l a b : Text} (h : occursB p l = true) :
    occursB p (a ++ l ++ b) = true := by
  rw [List.append_assoc]
  exact occursB_of_suffix _ _ _ (occursB_of_pre _ _ _ h)

theorem hasMatchAt_cons (m : Text → Option Text) (c : Char) (rest : Text) :
    hasMatchAt m (c :: rest) = ((m (c :: rest)).isSome || hasMatchAt m rest) := rfl

theorem hasMatchAt_of_dropWhile {m : Text → Option Text} {q : Char → Bool} {s : Text}
    (h : hasMatchAt m (s.dropWhile q) = true) : hasMatchAt m s = true := by
  induction s with
  | nil => simpa [List.dropWhile] using h
  | cons c rest ih =>
    by_cases hq : q c = true
    · rw [List.dropWhile_cons_of_pos hq] at h
      rw [hasMatchAt_cons, Bool.or_eq_true]
      exact Or.inr (ih h)
    · rwa [List.dropWhile_cons_of_neg (by simp [hq])] at h

theorem occursB_nil_pat (s : Text) : occursB ([] : Text) s = true := by
  cases s with
  | nil => rfl
  | cons c rest => simp [occursB_cons, isPre_nil]

theorem occursB_exists {p s : Text} (h : occursB p s = true) :
    ∃ a b, s = a ++ b ∧ isPre p b = true := by
  induction s with
  | nil =>
    cases p with
    | nil => exact ⟨[], [], rfl, rfl⟩
    | cons x p2 => simp [occursB, List.isEmpty] at h
  | cons c rest ih =>
    rw [occursB_cons, Bool.or_eq_true] at h
    rcases h with h | h
    · exact ⟨[], c :: rest, rfl, h⟩
    · rcases ih h with ⟨a, b, heq, hpre⟩
      exact ⟨c :: a, b, by rw [heq, List.cons_append], hpre⟩

theorem urlTail_isSome_iff {t : Text} :
    (urlTail t).isSome = true ↔ ∃ c t2, t = c :: t2 ∧ pyIsSpace c = false := by
  cases t with
  | nil => simp [urlTail]
  | cons c t2 =>
    constructor
    · intro h
      refine ⟨c, t2, rfl, ?_⟩
      cases hc : pyIsSpace c with
      | false => rfl
      | true =>
        rw [show urlTail (c :: t2) = none by
          rw [show urlTail (c :: t2) =
            (if pyIsSpace c = true then none
             else some (t2.dropWhile (fun d => !(pyIsSpace d)))) from rfl, if_pos hc]] at h
        cases h
    · rintro ⟨c2, t3, heq, hns⟩
      injection heq with h1 h2
      rw [← h1] at hns
      rw [show urlTail (c :: t2) =
        (if pyIsSpace c = true then none
         else some (t2.dropWhile (fun d => !(pyIsSpace d)))) from rfl,
        if_neg (by simp [hns])]
      rfl

theorem matchH_none_of_ws_head {c : Char} {t : Text} (hc : pyIsSpace c = true) :
    matchH (c :: t) = none := by
  have h7 : ¬ isPre ("http://".toList) (c :: t) = true := by
    intro hh
    rw [show ("http://".toList : Text) = 'h' :: "ttp://".toList from rfl] at hh
    simp only [isPre, Bool.and_eq_true, beq_iff_eq] at hh
    rw [← hh.1] at hc
    exact absurd hc (by decide)
  have h8 : ¬ isPre ("https://".toList) (c :: t) = true := by
    intro hh
    rw [show ("https://".toList : Text) = 'h' :: "ttps://".toList from rfl] at hh
    simp only [isPre, Bool.and_eq_true, beq_iff_eq] at hh
    rw [← hh.1] at hc
    exact absurd hc (by decide)
  unfold matchH
  rw [if_neg h7, if_neg h8]

theorem matchW_none_of_ws_head {c : Char} {t : Text} (hc : pyIsSpace c = true) :
    matchW (c :: t) = none := by
  have h4 : ¬ isPre ("www.".toList) (c :: t) = true := by
    intro hh
    rw [show ("www.".toList : Text) = 'w' :: "ww.".toList from rfl] at hh
    simp only [isPre, Bool.and_eq_true, beq_iff_eq] at hh
    rw [← hh.1] at hc
    exact absurd hc (by decide)
  unfold matchW
  rw [if_neg h4]

theorem matchH_isSome_iff {s : Text} :
    (matchH s).isSome = true ↔
      ∃ c, pyIsSpace c = false ∧
        (isPre (("http://".toList) ++ [c]) s = true ∨
         isPre (("https://".toList) ++ [c]) s = true) := by
  constructor
  · intro h
    unfold matchH at h
    by_cases h7 : isPre ("http://".toList) s = true
    · rw [if_pos h7] at h
      rcases urlTail_isSome_iff.mp h with ⟨c, t2, hdrop, hc⟩
      refine ⟨c, hc, Or.inl ?_⟩
      have hdec := isPre_decomp h7
      rw [show ("http://".toList : Text).length = 7 from rfl] at hdec
      rw [hdec, hdrop, isPre_cancel]
      simp [isPre]
    · rw [if_neg h7] at h
      by_cases h8 : isPre ("https://".toList) s = true
      · rw [if_pos h8] at h
        rcases urlTail_isSome_iff.mp h with ⟨c, t2, hdrop, hc⟩
        refine ⟨c, hc, Or.inr ?_⟩
        have hdec := isPre_decomp h8
        rw [show ("https://".toList : Text).length = 8 from rfl] at hdec
        rw [hdec, hdrop, isPre_cancel]
        simp [isPre]
      · rw [if_neg h8] at h
        cases h
  · rintro ⟨c, hc, hor | hor⟩
    · have h7 : isPre ("http://".toList) s = true := isPre_of_append_left hor
      have hdec := isPre_decomp hor
      rw [show (("http://".toList : Text) ++ [c]).length = 8 from by simp] at hdec
      have hdrop : s.drop 7 = c :: s.drop 8 := by
        conv_lhs => rw [hdec]
        rw [List.append_assoc,
          show (7 : Nat) = ("http://".toList : Text).length from rfl, List.drop_left]
        rfl
      unfold matchH
      rw [if_pos h7]
      exact urlTail_isSome_iff.mpr ⟨c, s.drop 8, hdrop, hc⟩
    · have h8 : isPre ("https://".toList) s = true := isPre_of_append_left hor
      have h7 : ¬ isPre ("http://".toList) s = true := by
        intro h7t
        have t7 := isPre_iff_take.mp h7t
        have t8 := isPre_iff_take.mp h8
        rw [show ("http://".toList : Text).length = 7 from rfl] at t7
        rw [show ("https://".toList : Text).length = 8 from rfl] at t8
        have ht : s.take 7 = ("https://".toList).take 7 := by
          rw [← t8, List.take_take]
          norm_num
        rw [t7] at ht
        exact absurd ht (by decide)
      have hdec := isPre_decomp hor
      rw [show (("https://".toList : Text) ++ [c]).length = 9 from by simp] at hdec
      have hdrop : s.drop 8 = c :: s.drop 9 := by
        conv_lhs => rw [hdec]
        rw [List.append_assoc,
          show (8 : Nat) = ("https://".toList : Text).length from rfl, List.drop_left]
        rfl
      unfold matchH
      rw [if_neg h7, if_pos h8]
      exact urlTail_isSome_iff.mpr ⟨c, s.drop 9, hdrop, hc⟩

theorem matchW_isSome_iff {s : Text} :
    (matchW s).isSome = true ↔
      ∃ c, pyIsSpace c = false ∧ isPre (("www.".toList) ++ [c]) s = true := by
  constructor
  · intro h
    unfold matchW at h
    by_cases h4 : isPre ("www.".toList) s = true
    · rw [if_pos h4] at h
      rcases urlTail_isSome_iff.mp h with ⟨c, t2, hdrop, hc⟩
      refine ⟨c, hc, ?_⟩
      have hdec := isPre_decomp h4
      rw [show ("www.".toList : Text).length = 4 from rfl] at hdec
      rw [hdec, hdrop, isPre_cancel]
      simp [isPre]
    · rw [if_neg h4] at h
      cases h
  · rintro ⟨c, hc, hor⟩
    have h4 : isPre ("www.".toList) s = true := isPre_of_append_left hor
    have hdec := isPre_decomp hor
    rw [show (("www.".toList : Text) ++ [c]).length = 5 from by simp] at hdec
    have hdrop : s.drop 4 = c :: s.drop 5 := by
      conv_lhs => rw [hdec]
      rw [List.append_assoc,
        show (4 : Nat) = ("www.".toList : Text).length from rfl, List.drop_left]
      rfl
    unfold matchW
    rw [if_pos h4]
    exact urlTail_isSome_iff.mpr ⟨c, s.drop 5, hdrop, hc⟩

theorem matchH_transfer {s t : Text}
    (hT : ∀ q : Text, allNS q → isPre q t = true → isPre q s = true)
    (hm : (matchH t).isSome = true) : (matchH s).isSome = true := by
  rcases matchH_isSome_iff.mp hm with ⟨c, hc, hor | hor⟩
  · refine matchH_isSome_iff.mpr ⟨c, hc, Or.inl (hT _ ?_ hor)⟩
    intro a ha
    rcases List.mem_append.mp ha with h | h
    · exact (by decide : ∀ a ∈ ("http://".toList : Text), pyIsSpace a = false) a h
    · rw [List.mem_singleton.mp h]; exact hc
  · refine matchH_isSome_iff.mpr ⟨c, hc, Or.inr (hT _ ?_ hor)⟩
    intro a ha
    rcases List.mem_append.mp ha with h | h
    · exact (by decide : ∀ a ∈ ("https://".toList : Text), pyIsSpace a = false) a h
    · rw [List.mem_singleton.mp h]; exact hc

theorem matchW_transfer {s t : Text}
    (hT : ∀ q : Text, allNS q → isPre q t = true → isPre q s = true)
    (hm : (matchW t).isSome = true) : (matchW s).isSome = true := by
  rcases matchW_isSome_iff.mp hm with ⟨c, hc, hor⟩
  refine matchW_isSome_iff.mpr ⟨c, hc, hT _ ?_ hor⟩
  intro a ha
  rcases List.mem_append.mp ha with h | h
  · exact (by decide : ∀ a ∈ ("www.".toList : Text), pyIsSpace a = false) a h
  · rw [List.mem_singleton.mp h]; exact hc

theorem subAux_false_cons (m : Text → Option Text) (c : Char) (t : Text) :
    subAux m false (c :: t) =
      (if (m (c :: t)).isSome = true then subAux m true t
       else c :: subAux m false t) := rfl

theorem subAux_true_cons (m : Text → Option Text) (c : Char) (t : Text) :
    subAux m true (c :: t) =
      (if pyIsSpace c = true then c :: subAux m false t
       else subAux m true t) := rfl

theorem subAux_ws_cons {m : Text → Option Text}
    (hws : ∀ c t, pyIsSpace c = true → m (c :: t) = none)
    {c : Char} (t : Text) (hc : pyIsSpace c = true) :
    subAux m false (c :: t) = c :: subAux m false t := by
  rw [subAux_false_cons, hws c t hc]
  simp

theorem subAux_true_eq {m : Text → Option Text}
    (hws : ∀ c t, pyIsSpace c = true → m (c :: t) = none) (s : Text) :
    subAux m true s = subAux m false (s.dropWhile (fun c => !(pyIsSpace c))) := by
  induction s with
  | nil => rfl
  | cons c rest ih =>
    by_cases hc : pyIsSpace c = true
    · rw [subAux_true_cons, if_pos hc,
        List.dropWhile_cons_of_neg (by simp [hc]), subAux_ws_cons hws rest hc]
    · rw [subAux_true_cons, if_neg hc,
        List.dropWhile_cons_of_pos (by simp [Bool.of_not_eq_true hc])]
      exact ih

theorem subAux_isPre {m : Text → Option Text}
    (hws : ∀ c t, pyIsSpace c = true → m (c :: t) = none) :
    ∀ {s q : Text}, allNS q → isPre q (subAux m false s) = true → isPre q s = true := by
  intro s
  induction s with
  | nil =>
    intro q hq h
    cases q with
    | nil => exact isPre_nil _
    | cons a as => exact absurd h (by rw [show subAux m false [] = [] from rfl]; simp [isPre])
  | cons c rest ih =>
    intro q hq h
    by_cases hm : (m (c :: rest)).isSome = true
    · rw [subAux_false_cons, if_pos hm, subAux_true_eq hws] at h
      cases hu : rest.dropWhile (fun c => !(pyIsSpace c)) with
      | nil =>
        rw [hu] at h
        cases q with
        | nil => exact isPre_nil _
        | cons a as =>
          exact absurd h (by rw [show subAux m false [] = [] from rfl]; simp [isPre])
      | cons d t =>
        have hd : pyIsSpace d = true := by
          have hh := List.head?_dropWhile_not (fun c => !(pyIsSpace c)) rest
          rw [hu] at hh
          simpa using hh
        rw [hu, subAux_ws_cons hws t hd] at h
        cases q with
        | nil => exact isPre_nil _
        | cons a as =>
          exfalso
          have ha := hq a (List.mem_cons_self _ _)
          simp only [isPre, Bool.and_eq_true, beq_iff_eq] at h
          rw [h.1, hd] at ha
          cases ha
    · rw [subAux_false_cons, if_neg hm] at h
      cases q with
      | nil => exact isPre_nil _
      | cons a as =>
        simp only [isPre, Bool.and_eq_true, beq_iff_eq] at h ⊢
        exact ⟨h.1, ih (fun x hx => hq x (List.mem_cons_of_mem _ hx)) h.2⟩

theorem subAux_no_match_aux {m : Text → Option Text}
    (hws : ∀ c t, pyIsSpace c = true → m (c :: t) = none)
    (htr : ∀ sa ta : Text,
      (∀ q : Text, allNS q → isPre q ta = true → isPre q sa = true) →
      (m ta).isSome = true → (m sa).isSome = true) :
    ∀ n (s : Text), s.length ≤ n → hasMatchAt m (subAux m false s) = false := by
  intro n
  induction n with
  | zero =>
    intro s hs
    rw [List.length_eq_zero.mp (Nat.le_zero.mp hs)]
    rfl
  | succ n ih =>
    intro s hs
    cases s with
    | nil => rfl
    | cons c rest =>
      have hrest : rest.length ≤ n := Nat.le_of_succ_le_succ (by simpa using hs)
      by_cases hm : (m (c :: rest)).isSome = true
      · rw [subAux_false_cons, if_pos hm, subAux_true_eq hws]
        exact ih _ (Nat.le_trans (length_dropWhile_le _ _) hrest)
      · rw [subAux_false_cons, if_neg hm, hasMatchAt_cons, ih rest hrest, Bool.or_false]
        cases hmc : (m (c :: subAux m false rest)).isSome with
        | false => rfl
        | true =>
          exfalso
          apply hm
          refine htr (c :: rest) (c :: subAux m false rest) ?_ hmc
          intro q hq hpre
          cases q with
          | nil => exact isPre_nil _
          | cons a as =>
            simp only [isPre, Bool.and_eq_true, beq_iff_eq] at hpre ⊢
            exact ⟨hpre.1, subAux_isPre hws (fun x hx => hq x (List.mem_cons_of_mem _ hx)) hpre.2⟩

theorem subAux_no_match {m : Text → Option Text}
    (hws : ∀ c t, pyIsSpace c = true → m (c :: t) = none)
    (htr : ∀ sa ta : Text,
      (∀ q : Text, allNS q → isPre q ta = true → isPre q sa = true) →
      (m ta).isSome = true → (m sa).isSome = true)
    (s : Text) : hasMatchAt m (subAux m false s) = false :=
  subAux_no_match_aux hws htr s.length s (Nat.le_refl _)

theorem subAux_preserve_aux {m m2 : Text → Option Text}
    (hws : ∀ c t, pyIsSpace c = true → m (c :: t) = none)
    (htr2 : ∀ sa ta : Text,
      (∀ q : Text, allNS q → isPre q ta = true → isPre q sa = true) →
      (m2 ta).isSome = true → (m2 sa).isSome = true) :
    ∀ n (s : Text), s.length ≤ n → hasMatchAt m2 s = false →
      hasMatchAt m2 (subAux m false s) = false := by
  intro n
  induction n with
  | zero =>
    intro s hs _
    rw [List.length_eq_zero.mp (Nat.le_zero.mp hs)]
    rfl
  | succ n ih =>
    intro s hs h
    cases s with
    | nil => rfl
    | cons c rest =>
      have hrest : rest.length ≤ n := Nat.le_of_succ_le_succ (by simpa using hs)
      rw [hasMatchAt_cons, Bool.or_eq_false_iff] at h
      by_cases hm : (m (c :: rest)).isSome = true
      · rw [subAux_false_cons, if_pos hm, subAux_true_eq hws]
        apply ih _ (Nat.le_trans (length_dropWhile_le _ _) hrest)
        cases hd : hasMatchAt m2 (rest.dropWhile (fun c => !(pyIsSpace c))) with
        | false => rfl
        | true =>
          exfalso
          have := hasMatchAt_of_dropWhile hd
          rw [h.2] at this
          cases this
      · rw [subAux_false_cons, if_neg hm, hasMatchAt_cons, ih rest hrest h.2, Bool.or_false]
        cases hmc : (m2 (c :: subAux m false rest)).isSome with
        | false => rfl
        | true =>
          exfalso
          have h1 : (m2 (c :: rest)).isSome = true := by
            refine htr2 (c :: rest) (c :: subAux m false rest) ?_ hmc
            intro q hq hpre
            cases q with
            | nil => exact isPre_nil _
            | cons a as =>
              simp only [isPre, Bool.and_eq_true, beq_iff_eq] at hpre ⊢
              exact ⟨hpre.1,
                subAux_isPre hws (fun x hx => hq x (List.mem_cons_of_mem _ hx)) hpre.2⟩
          rw [h.1] at h1
          cases h1

theorem subAux_preserve {m m2 : Text → Option Text}
    (hws : ∀ c t, pyIsSpace c = true → m (c :: t) = none)
    (htr2 : ∀ sa ta : Text,
      (∀ q : Text, allNS q → isPre q ta = true → isPre q sa = true) →
      (m2 ta).isSome = true → (m2 sa).isSome = true)
    {s : Text} (h : hasMatchAt m2 s = false) :
    hasMatchAt m2 (subAux m false s) = false :=
  subAux_preserve_aux hws htr2 s.length s (Nat.le_refl _) h

theorem strip_urls_no_http (x : Text) :
    hasMatchAt matchH (strip_urls x) = false := by
  unfold strip_urls stripWww stripHttp
  exact subAux_preserve (fun c t hc => matchW_none_of_ws_head hc)
    (fun _ _ hT hm => matchH_transfer hT hm)
    (subAux_no_match (fun c t hc => matchH_none_of_ws_head hc)
      (fun _ _ hT hm => matchH_transfer hT hm) x)

theorem strip_urls_no_www (x : Text) :
    hasMatchAt matchW (strip_urls x) = false := by
  unfold strip_urls stripWww
  exact subAux_no_match (fun c t hc => matchW_none_of_ws_head hc)
    (fun _ _ hT hm => matchW_transfer hT hm) _

theorem hasMatchAt_iff {m : Text → Option Text} {s : Text} :
    hasMatchAt m s = true ↔ ∃ a b, s = a ++ b ∧ b ≠ [] ∧ (m b).isSome = true := by
  induction s with
  | nil =>
    constructor
    · intro h; cases h
    · rintro ⟨a, b, heq, hb, _⟩
      rcases List.append_eq_nil.mp heq.symm with ⟨_, h2⟩
      exact absurd h2 hb
  | cons c rest ih =>
    constructor
    · intro h
      rw [hasMatchAt_cons, Bool.or_eq_true] at h
      rcases h with h | h
      · exact ⟨[], c :: rest, rfl, by simp, h⟩
      · rcases ih.mp h with ⟨a, b, heq, hb, hm⟩
        exact ⟨c :: a, b, by rw [heq, List.cons_append], hb, hm⟩
    · rintro ⟨a, b, heq, hb, hm⟩
      rw [hasMatchAt_cons, Bool.or_eq_true]
      cases a with
      | nil =>
        rw [List.nil_append] at heq
        rw [← heq] at hm
        exact Or.inl hm
      | cons a0 a2 =>
        rw [List.cons_append] at heq
        injection heq with h1 h2
        exact Or.inr (ih.mpr ⟨a2, b, h2, hb, hm⟩)

theorem isPre_ne_nil {p b : Text} (hp : p ≠ []) (h : isPre p b = true) : b ≠ [] := by
  cases b with
  | nil =>
    cases p with
    | nil => exact absurd rfl hp
    | cons x p2 => simp [isPre] at h
  | cons c t => simp

theorem hasH_iff {s : Text} :
    hasMatchAt matchH s = true ↔
      ∃ c, pyIsSpace c = false ∧
        (occursB (("http://".toList) ++ [c]) s = true ∨
         occursB (("https://".toList) ++ [c]) s = true) := by
  rw [hasMatchAt_iff]
  constructor
  · rintro ⟨a, b, heq, hb, hm⟩
    rcases matchH_isSome_iff.mp hm with ⟨c, hc, hor | hor⟩
    · exact ⟨c, hc, Or.inl (by
        rw [heq]
        exact occursB_of_suffix _ _ _ (occursB_of_isPre _ _ hor))⟩
    · exact ⟨c, hc, Or.inr (by
        rw [heq]
        exact occursB_of_suffix _ _ _ (occursB_of_isPre _ _ hor))⟩
  · rintro ⟨c, hc, hor | hor⟩
    · rcases occursB_exists hor with ⟨a, b, heq, hpre⟩
      exact ⟨a, b, heq, isPre_ne_nil (by simp) hpre,
        matchH_isSome_iff.mpr ⟨c, hc, Or.inl hpre⟩⟩
    · rcases occursB_exists hor with ⟨a, b, heq, hpre⟩
      exact ⟨a, b, heq, isPre_ne_nil (by simp) hpre,
        matchH_isSome_iff.mpr ⟨c, hc, Or.inr hpre⟩⟩

theorem hasW_iff {s : Text} :
    hasMatchAt matchW s = true ↔
      ∃ c, pyIsSpace c = false ∧ occursB (("www.".toList) ++ [c]) s = true := by
  rw [hasMatchAt_iff]
  constructor
  · rintro ⟨a, b, heq, hb, hm⟩
    rcases matchW_isSome_iff.mp hm with ⟨c, hc, hor⟩
    exact ⟨c, hc, by
      rw [heq]
      exact occursB_of_suffix _ _ _ (occursB_of_isPre _ _ hor)⟩
  · rintro ⟨c, hc, hor⟩
    rcases occursB_exists hor with ⟨a, b, heq, hpre⟩
    exact ⟨a, b, heq, isPre_ne_nil (by simp) hpre,
      matchW_isSome_iff.mpr ⟨c, hc, hpre⟩⟩

theorem allNS_http_pat (c : Char) (hc : pyIsSpace c = false) :
    allNS (("http://".toList) ++ [c]) := by
  intro a ha
  rcases List.mem_append.mp ha with h | h
  · exact (by decide : ∀ a ∈ ("http://".toList : Text), pyIsSpace a = false) a h
  · rw [List.mem_singleton.mp h]; exact hc

theorem allNS_https_pat (c : Char) (hc : pyIsSpace c = false) :
    allNS (("https://".toList) ++ [c]) := by
  intro a ha
  rcases List.mem_append.mp ha with h | h
  · exact (by decide : ∀ a ∈ ("https://".toList : Text), pyIsSpace a = false) a h
  · rw [List.mem_singleton.mp h]; exact hc

theorem allNS_www_pat (c : Char) (hc : pyIsSpace c = false) :
    allNS (("www.".toList) ++ [c]) := by
  intro a ha
  rcases List.mem_append.mp ha with h | h
  · exact (by decide : ∀ a ∈ ("www.".toList : Text), pyIsSpace a = false) a h
  · rw [List.mem_singleton.mp h]; exact hc

theorem hasH_false_transport {u s : Text}
    (htrans : ∀ p : Text, allNS p → occursB p u = true → occursB p s = true)
    (h : hasMatchAt matchH s = false) : hasMatchAt matchH u = false := by
  cases hval : hasMatchAt matchH u with
  | false => rfl
  | true =>
    exfalso
    rcases hasH_iff.mp hval with ⟨c, hc, hor | hor⟩
    · have h2 : hasMatchAt matchH s = true :=
        hasH_iff.mpr ⟨c, hc, Or.inl (htrans _ (allNS_http_pat c hc) hor)⟩
      rw [h] at h2; cases h2
    · have h2 : hasMatchAt matchH s = true :=
        hasH_iff.mpr ⟨c, hc, Or.inr (htrans _ (allNS_https_pat c hc) hor)⟩
      rw [h] at h2; cases h2

theorem hasW_false_transport {u s : Text}
    (htrans : ∀ p : Text, allNS p → occursB p u = true → occursB p s = true)
    (h : hasMatchAt matchW s = false) : hasMatchAt matchW u = false := by
  cases hval : hasMatchAt matchW u with
  | false => rfl
  | true =>
    exfalso
    rcases hasW_iff.mp hval with ⟨c, hc, hor⟩
    have h2 : hasMatchAt matchW s = true :=
      hasW_iff.mpr ⟨c, hc, htrans _ (allNS_www_pat c hc) hor⟩
    rw [h] at h2; cases h2

theorem collapseSpacesAux_cons (flag : Bool) (c : Char) (rest : Text) :
    collapseSpacesAux flag (c :: rest) =
      (if isHWS c = true then
        (if flag = true then collapseSpacesAux true rest
         else ' ' :: collapseSpacesAux true rest)
       else c :: collapseSpacesAux false rest) := rfl

theorem collapseSpacesAux_isPre :
    ∀ {s q : Text}, ' ' ∉ q → isPre q (collapseSpacesAux false s) = true →
      isPre q s = true := by
  intro s
  induction s with
  | nil =>
    intro q hq h
    cases q with
    | nil => exact isPre_nil _
    | cons a as => simp [isPre] at h
  | cons c rest ih =>
    intro q hq h
    by_cases hc : isHWS c = true
    · rw [collapseSpacesAux_cons, if_pos hc, if_neg (by simp)] at h
      cases q with
      | nil => exact isPre_nil _
      | cons a as =>
        exfalso
        simp only [isPre, Bool.and_eq_true, beq_iff_eq] at h
        exact hq (h.1 ▸ List.mem_cons_self _ _)
    · rw [collapseSpacesAux_cons, if_neg hc] at h
      cases q with
      | nil => exact isPre_nil _
      | cons a as =>
        simp only [isPre, Bool.and_eq_true, beq_iff_eq] at h ⊢
        exact ⟨h.1, ih (fun hx => hq (List.mem_cons_of_mem _ hx)) h.2⟩

theorem collapseSpacesAux_occurs {p : Text} (hp : ' ' ∉ p) :
    ∀ {s : Text} (flag : Bool), occursB p (collapseSpacesAux flag s) = true →
      occursB p s = true := by
  intro s
  induction s with
  | nil => intro flag h; exact h
  | cons c rest ih =>
    intro flag h
    by_cases hc : isHWS c = true
    · rw [collapseSpacesAux_cons, if_pos hc] at h
      cases hflag : flag with
      | true =>
        rw [hflag, if_pos rfl] at h
        exact occursB_of_tail _ _ _ (ih true h)
      | false =>
        rw [hflag, if_neg (by simp)] at h
        rw [occursB_cons, Bool.or_eq_true] at h
        rcases h with h | h
        · cases p with
          | nil => exact occursB_nil_pat _
          | cons a as =>
            exfalso
            simp only [isPre, Bool.and_eq_true, beq_iff_eq] at h
            exact hp (h.1 ▸ List.mem_cons_self _ _)
        · exact occursB_of_tail _ _ _ (ih true h)
    · rw [collapseSpacesAux_cons, if_neg hc] at h
      rw [occursB_cons, Bool.or_eq_true] at h
      rcases h with h | h
      · cases p with
        | nil => exact occursB_nil_pat _
        | cons a as =>
          simp only [isPre, Bool.and_eq_true, beq_iff_eq] at h
          refine occursB_of_isPre _ _ ?_
          simp only [isPre, Bool.and_eq_true, beq_iff_eq]
          exact ⟨h.1,
            collapseSpacesAux_isPre (fun hx => hp (List.mem_cons_of_mem _ hx)) h.2⟩
      · exact occursB_of_tail _ _ _ (ih false h)

theorem nlRun_pos {k : Nat} (hk : 1 ≤ k) : ∃ t, nlRun k = '\n' :: t := by
  unfold nlRun
  by_cases h3 : 3 ≤ k
  · exact ⟨['\n'], by rw [if_pos h3]⟩
  · cases k with
    | zero => omega
    | succ n =>
      exact ⟨List.replicate n '\n', by rw [if_neg h3, List.replicate_succ]⟩

theorem nlRun_all_nl (k : Nat) : ∀ c ∈ nlRun k, c = '\n' := by
  intro c hc
  unfold nlRun at hc
  by_cases h3 : 3 ≤ k
  · rw [if_pos h3] at hc
    rcases List.mem_cons.mp hc with h | h
    · exact h
    · exact List.mem_singleton.mp h
  · rw [if_neg h3] at hc
    exact List.eq_of_mem_replicate hc

theorem nlRun_ws (k : Nat) : ∀ c ∈ nlRun k, pyIsSpace c = true := by
  intro c hc
  rw [nlRun_all_nl k c hc]
  decide

theorem collapseNLAux_cons (k : Nat) (c : Char) (rest : Text) :
    collapseNLAux k (c :: rest) =
      (if (c == '\n') = true then collapseNLAux (k + 1) rest
       else nlRun k ++ c :: collapseNLAux 0 rest) := rfl

theorem collapseNLAux_pos_head :
    ∀ (s : Text) {k : Nat}, 1 ≤ k →
      collapseNLAux k s = [] ∨ ∃ t, collapseNLAux k s = '\n' :: t := by
  intro s
  induction s with
  | nil =>
    intro k hk
    rcases nlRun_pos hk with ⟨t, ht⟩
    exact Or.inr ⟨t, ht⟩
  | cons c rest ih =>
    intro k hk
    by_cases hc : (c == '\n') = true
    · rw [collapseNLAux_cons, if_pos hc]
      exact ih (by omega)
    · rw [collapseNLAux_cons, if_neg hc]
      rcases nlRun_pos hk with ⟨t, ht⟩
      exact Or.inr ⟨t ++ c :: collapseNLAux 0 rest, by rw [ht, List.cons_append]⟩

theorem collapseNLAux_isPre0 :
    ∀ {s q : Text}, '\n' ∉ q → isPre q (collapseNLAux 0 s) = true → isPre q s = true := by
  intro s
  induction s with
  | nil =>
    intro q hq h
    cases q with
    | nil => exact isPre_nil _
    | cons a as => simp [collapseNLAux, nlRun, isPre] at h
  | cons c rest ih =>
    intro q hq h
    by_cases hc : (c == '\n') = true
    · rw [collapseNLAux_cons, if_pos hc] at h
      rcases collapseNLAux_pos_head rest (by omega : 1 ≤ 0 + 1) with he | ⟨t, ht⟩
      · rw [he] at h
        cases q with
        | nil => exact isPre_nil _
        | cons a as => simp [isPre] at h
      · rw [ht] at h
        cases q with
        | nil => exact isPre_nil _
        | cons a as =>
          exfalso
          simp only [isPre, Bool.and_eq_true, beq_iff_eq] at h
          exact hq (h.1 ▸ List.mem_cons_self _ _)
    · rw [collapseNLAux_cons, if_neg hc] at h
      rw [show nlRun 0 = [] from rfl, List.nil_append] at h
      cases q with
      | nil => exact isPre_nil _
      | cons a as =>
        simp only [isPre, Bool.and_eq_true, beq_iff_eq] at h ⊢
        exact ⟨h.1, ih (fun hx => hq (List.mem_cons_of_mem _ hx)) h.2⟩

theorem collapseNLAux_occurs {p : Text} (hp : '\n' ∉ p) :
    ∀ {s : Text} (k : Nat), occursB p (collapseNLAux k s) = true →
      occursB p s = true := by
  intro s
  induction s with
  | nil =>
    intro k h
    cases hp2 : p.isEmpty with
    | true =>
      rw [List.isEmpty_iff] at hp2
      rw [hp2]
      exact occursB_nil_pat _
    | false =>
      exfalso
      have hpne : p ≠ [] := by
        intro hcon; rw [hcon] at hp2; cases hp2
      have hrw : collapseNLAux k ([] : Text) = nlRun k ++ [] := by
        rw [List.append_nil]; rfl
      rw [hrw, occursB_all_eq_append hpne hp (nlRun_all_nl k)] at h
      rw [show occursB p ([] : Text) = p.isEmpty from rfl, hp2] at h
      cases h
  | cons c rest ih =>
    intro k h
    by_cases hc : (c == '\n') = true
    · rw [collapseNLAux_cons, if_pos hc] at h
      exact occursB_of_tail _ _ _ (ih (k + 1) h)
    · rw [collapseNLAux_cons, if_neg hc] at h
      cases hp2 : p.isEmpty with
      | true =>
        rw [List.isEmpty_iff] at hp2
        rw [hp2]
        exact occursB_nil_pat _
      | false =>
        have hpne : p ≠ [] := by
          intro hcon; rw [hcon] at hp2; cases hp2
        rw [occursB_all_eq_append hpne hp (nlRun_all_nl k)] at h
        rw [occursB_cons, Bool.or_eq_true] at h
        rcases h with h | h
        · cases p with
          | nil => exact occursB_nil_pat _
          | cons a as =>
            simp only [isPre, Bool.and_eq_true, beq_iff_eq] at h
            refine occursB_of_isPre _ _ ?_
            simp only [isPre, Bool.and_eq_true, beq_iff_eq]
            exact ⟨h.1,
              collapseNLAux_isPre0 (fun hx => hp (List.mem_cons_of_mem _ hx)) h.2⟩
        · exact occursB_of_tail _ _ _ (ih 0 h)

theorem pyRstrip_decomp (l : Text) : ∃ b, l = pyRstrip l ++ b := by
  unfold pyRstrip
  rcases (List.dropWhile_suffix pyIsSpace : l.reverse.dropWhile pyIsSpace <:+ l.reverse)
    with ⟨a, ha⟩
  refine ⟨a.reverse, ?_⟩
  have h2 := congrArg List.reverse ha
  rw [List.reverse_append, List.reverse_reverse] at h2
  exact h2.symm

theorem pyStrip_decomp (s : Text) : ∃ a b, s = a ++ pyStrip s ++ b := by
  unfold pyStrip
  rcases (List.dropWhile_suffix pyIsSpace : s.dropWhile pyIsSpace <:+ s) with ⟨a, ha⟩
  rcases (List.dropWhile_suffix pyIsSpace :
      (s.dropWhile pyIsSpace).reverse.dropWhile pyIsSpace <:+ (s.dropWhile pyIsSpace).reverse)
    with ⟨b, hb⟩
  refine ⟨a, b.reverse, ?_⟩
  have h2 := congrArg List.reverse hb
  rw [List.reverse_append, List.reverse_reverse] at h2
  conv_lhs => rw [← ha, ← h2]
  rw [← List.append_assoc]

theorem occursB_pyRstrip {p l : Text} (h : occursB p (pyRstrip l) = true) :
    occursB p l = true := by
  rcases pyRstrip_decomp l with ⟨b, hb⟩
  rw [hb]
  exact occursB_of_pre _ _ _ h

theorem occursB_pyStrip {p s : Text} (h : occursB p (pyStrip s) = true) :
    occursB p s = true := by
  rcases pyStrip_decomp s with ⟨a, b, hab⟩
  rw [hab]
  exact occursB_of_infix h

theorem occursB_joinN {p : Text} (hp : '\n' ∉ p) (hpne : p ≠ []) :
    ∀ {ls : List Text}, occursB p (joinN ls) = true → ∃ l ∈ ls, occursB p l = true := by
  intro ls
  induction ls with
  | nil =>
    intro h
    rw [show joinN [] = [] from rfl] at h
    rw [show occursB p ([] : Text) = p.isEmpty from rfl] at h
    exact absurd (List.isEmpty_iff.mp h) hpne
  | cons l ls ih =>
    intro h
    cases ls with
    | nil =>
      rw [show joinN [l] = l from rfl] at h
      exact ⟨l, List.mem_singleton.mpr rfl, h⟩
    | cons l2 ls2 =>
      rw [show joinN (l :: l2 :: ls2) = l ++ '\n' :: joinN (l2 :: ls2) from rfl] at h
      rcases occursB_append_split h with h | h | ⟨p1, p2, hp12, hp1, hp2, hpre, _, _⟩
      · exact ⟨l, List.mem_cons_self _ _, h⟩
      · rw [occursB_cons, Bool.or_eq_true] at h
        rcases h with h | h
        · exfalso
          cases p with
          | nil => exact absurd rfl hpne
          | cons x p3 =>
            simp only [isPre, Bool.and_eq_true, beq_iff_eq] at h
            exact hp (h.1 ▸ List.mem_cons_self _ _)
        · rcases ih h with ⟨l3, hl3, h3⟩
          exact ⟨l3, List.mem_cons_of_mem _ hl3, h3⟩
      · exfalso
        cases p2 with
        | nil => exact absurd rfl hp2
        | cons x p3 =>
          simp only [isPre, Bool.and_eq_true, beq_iff_eq] at hpre
          apply hp
          rw [hp12, ← hpre.1]
          exact List.mem_append.mpr (Or.inr (List.mem_cons_self _ _))

set_option maxHeartbeats 1000000 in
theorem splitGo_infix : ∀ (cur s l : Text), l ∈ splitGo cur s →
    ∃ a b, cur.reverse ++ s = a ++ l ++ b := by
  intro cur s
  induction cur, s using splitGo.induct with
  | case1 cur =>
    intro l hl
    rw [splitGo.eq_1] at hl
    exact ⟨[], [], by simp [List.mem_singleton.mp hl]⟩
  | case2 cur =>
    intro l hl
    rw [splitGo.eq_2] at hl
    exact ⟨[], ['\r', '\n'], by simp [List.mem_singleton.mp hl]⟩
  | case3 cur c rest ih =>
    intro l hl
    rw [splitGo.eq_3] at hl
    rcases List.mem_cons.mp hl with hl | hl
    · exact ⟨[], '\r' :: '\n' :: c :: rest, by simp [hl]⟩
    · rcases ih l hl with ⟨a, b, hab⟩
      simp only [List.reverse_nil, List.nil_append] at hab
      refine ⟨cur.reverse ++ '\r' :: '\n' :: a, b, ?_⟩
      rw [List.append_assoc, List.append_assoc]
      rw [List.append_assoc] at hab
      rw [show ('\r' :: '\n' :: a) ++ (l ++ b) = '\r' :: '\n' :: (a ++ (l ++ b)) by simp, ← hab]
  | case4 cur =>
    intro l hl
    rw [splitGo.eq_4] at hl
    exact ⟨[], ['\r'], by simp [List.mem_singleton.mp hl]⟩
  | case5 cur c rest h1 h2 ih =>
    intro l hl
    rw [splitGo.eq_5 cur c rest h1 h2] at hl
    rcases List.mem_cons.mp hl with hl | hl
    · exact ⟨[], '\r' :: c :: rest, by simp [hl]⟩
    · rcases ih l hl with ⟨a, b, hab⟩
      simp only [List.reverse_nil, List.nil_append] at hab
      refine ⟨cur.reverse ++ '\r' :: a, b, ?_⟩
      rw [List.append_assoc, List.append_assoc]
      rw [List.append_assoc] at hab
      rw [show ('\r' :: a) ++ (l ++ b) = '\r' :: (a ++ (l ++ b)) by simp, ← hab]
  | case6 cur c hbr h1 h2 h3 h4 =>
    intro l hl
    rw [splitGo.eq_6 cur c h1 h2 h3 h4, if_pos hbr] at hl
    exact ⟨[], [c], by simp [List.mem_singleton.mp hl]⟩
  | case7 cur c hbr d rest2 h1 h2 h3 h4 ih =>
    intro l hl
    rw [splitGo.eq_7 cur c d rest2 h1 h2 h3 h4, if_pos hbr] at hl
    rcases List.mem_cons.mp hl with hl | hl
    · exact ⟨[], c :: d :: rest2, by simp [hl]⟩
    · rcases ih l hl with ⟨a, b, hab⟩
      simp only [List.reverse_nil, List.nil_append] at hab
      refine ⟨cur.reverse ++ c :: a, b, ?_⟩
      rw [List.append_assoc, List.append_assoc]
      rw [List.append_assoc] at hab
      rw [show (c :: a) ++ (l ++ b) = c :: (a ++ (l ++ b)) by simp, ← hab]
  | case8 cur c rest h1 h2 h3 h4 hbr ih =>
    intro l hl
    have hl2 : l ∈ splitGo (c :: cur) rest := by
      cases rest with
      | nil =>
        rw [splitGo.eq_6 cur c h1 h2 h3 h4, if_neg hbr] at hl
        exact hl
      | cons d rest2 =>
        rw [splitGo.eq_7 cur c d rest2 h1 h2 h3 h4, if_neg hbr] at hl
        exact hl
    rcases ih l hl2 with ⟨a, b, hab⟩
    rw [List.reverse_cons, List.append_assoc] at hab
    refine ⟨a, b, ?_⟩
    rw [← hab]
    rfl

theorem pySplitlines_infix {s l : Text} (hl : l ∈ pySplitlines s) :
    ∃ a b, s = a ++ l ++ b := by
  cases s with
  | nil =>
    rw [show pySplitlines [] = [] from rfl] at hl
    cases hl
  | cons c rest =>
    rw [show pySplitlines (c :: rest) = splitGo [] (c :: rest) from rfl] at hl
    rcases splitGo_infix [] (c :: rest) l hl with ⟨a, b, hab⟩
    simp only [List.reverse_nil, List.nil_append] at hab
    exact ⟨a, b, hab⟩

theorem post_occurs_transport {p : Text} (hp : '\n' ∉ p) {t3 : Text}
    (h : occursB p (pyStrip (joinN ((pySplitlines t3).map pyRstrip)) ++ ['\n']) = true) :
    occursB p t3 = true := by
  cases hpe : p.isEmpty with
  | true =>
    rw [List.isEmpty_iff.mp hpe]
    exact occursB_nil_pat _
  | false =>
    have hpne : p ≠ [] := by
      intro hcon; rw [hcon] at hpe; cases hpe
    rcases occursB_append_split h with h | h | ⟨p1, p2, hp12, hp1, hp2, hpre, _, _⟩
    · have h2 := occursB_pyStrip h
      rcases occursB_joinN hp hpne h2 with ⟨l, hl, h3⟩
      rcases List.mem_map.mp hl with ⟨l0, hl0, hmap⟩
      rw [← hmap] at h3
      have h4 := occursB_pyRstrip h3
      rcases pySplitlines_infix hl0 with ⟨a, b, hab⟩
      rw [hab]
      exact occursB_of_infix h4
    · exfalso
      rw [occursB_cons, Bool.or_eq_true] at h
      rcases h with h | h
      · cases p with
        | nil => exact absurd rfl hpne
        | cons x p3 =>
          simp only [isPre, Bool.and_eq_true, beq_iff_eq] at h
          exact hp (h.1 ▸ List.mem_cons_self _ _)
      · rw [show occursB p ([] : Text) = p.isEmpty from rfl, hpe] at h
        cases h
    · exfalso
      cases p2 with
      | nil => exact absurd rfl hp2
      | cons x p3 =>
        simp only [isPre, Bool.and_eq_true, beq_iff_eq] at hpre
        apply hp
        rw [hp12, ← hpre.1]
        exact List.mem_append.mpr (Or.inr (List.mem_cons_self _ _))

/-- C9: the normalizer's output never contains a match of `https?://\S+`
nor of `www\.\S+`: URL stripping removes every match and the later
rewriting steps cannot introduce a new one. -/
theorem normalize_no_urls (x : Text) :
    hasMatchAt matchH (normalize x) = false ∧
    hasMatchAt matchW (normalize x) = false := by
  have hH1 := strip_urls_no_http x
  have hW1 := strip_urls_no_www x
  have hH2 : hasMatchAt matchH (collapseSpaces (strip_urls x)) = false :=
    hasH_false_transport (fun p hp h => collapseSpacesAux_occurs (allNS_no_space hp) false h) hH1
  have hW2 : hasMatchAt matchW (collapseSpaces (strip_urls x)) = false :=
    hasW_false_transport (fun p hp h => collapseSpacesAux_occurs (allNS_no_space hp) false h) hW1
  have hH3 : hasMatchAt matchH (collapseNewlines (collapseSpaces (strip_urls x))) = false :=
    hasH_false_transport (fun p hp h => collapseNLAux_occurs (allNS_no_nl hp) 0 h) hH2
  have hW3 : hasMatchAt matchW (collapseNewlines (collapseSpaces (strip_urls x))) = false :=
    hasW_false_transport (fun p hp h => collapseNLAux_occurs (allNS_no_nl hp) 0 h) hW2
  constructor
  · exact hasH_false_transport (fun p hp h => post_occurs_transport (allNS_no_nl hp) h) hH3
  · exact hasW_false_transport (fun p hp h => post_occurs_transport (allNS_no_nl hp) h) hW3

theorem nlRun_noTriple (k : Nat) :
    occursB (['\n', '\n', '\n']) (nlRun k) = false := by
  unfold nlRun
  by_cases h3 : 3 ≤ k
  · rw [if_pos h3]
    decide
  · rw [if_neg h3]
    have hk : k < 3 := by omega
    interval_cases k <;> decide

theorem collapseNLAux_noTriple : ∀ (s : Text) (k : Nat),
    occursB (['\n', '\n', '\n']) (collapseNLAux k s) = false := by
  intro s
  induction s with
  | nil =>
    intro k
    rw [show collapseNLAux k [] = nlRun k from rfl]
    exact nlRun_noTriple k
  | cons c rest ih =>
    intro k
    by_cases hc : (c == '\n') = true
    · rw [collapseNLAux_cons, if_pos hc]
      exact ih (k + 1)
    · rw [collapseNLAux_cons, if_neg hc]
      cases hval : occursB (['\n', '\n', '\n']) (nlRun k ++ c :: collapseNLAux 0 rest) with
      | false => rfl
      | true =>
        exfalso
        rcases occursB_append_split hval with h | h | ⟨p1, p2, hp12, hp1, hp2, hpre, _, _⟩
        · rw [nlRun_noTriple k] at h
          cases h
        · rw [occursB_cons, Bool.or_eq_true] at h
          rcases h with h | h
          · simp only [isPre, Bool.and_eq_true, beq_iff_eq] at h
            rw [← h.1] at hc
            exact hc (by decide)
          · rw [ih 0] at h
            cases h
        · cases p2 with
          | nil => exact absurd rfl hp2
          | cons x p3 =>
            simp only [isPre, Bool.and_eq_true, beq_iff_eq] at hpre
            have hx : x ∈ (['\n', '\n', '\n'] : Text) := by
              rw [hp12]
              exact List.mem_append.mpr (Or.inr (List.mem_cons_self _ _))
            have hx2 : x = '\n' := by
              rcases List.mem_cons.mp hx with h | h
              · exact h
              · rcases List.mem_cons.mp h with h | h
                · exact h
                · exact List.mem_singleton.mp h
            rw [hpre.1] at hx2
            rw [hx2] at hc
            exact hc (by decide)

/-- C7 counterexample: on the input `a \n \n \nb` — blank lines consisting
of a single space — the normalizer's output is `a\n\n\nb\n`, which contains
a run of three consecutive newlines, because the newline-collapsing
substitution runs before the per-line trailing-whitespace strip. -/
theorem normalize_can_contain_triple_newline :
    occursB (['\n', '\n', '\n']) (normalize ("a \n \n \nb".toList)) = true ∧
    normalize ("a \n \n \nb".toList) = ("a\n\n\nb\n".toList) := by
  refine ⟨by decide, by decide⟩

/-- C7 amended: the newline-collapsing substitution itself leaves no run
of three or more consecutive newlines — its output never contains
`\n\n\n` — but it runs before lines holding only horizontal whitespace are
emptied by the per-line trailing-whitespace strip, so the final normalized
output can still contain such a run. -/
theorem collapseNewlines_noTriple (s : Text) :
    occursB (['\n', '\n', '\n']) (collapseNewlines s) = false :=
  collapseNLAux_noTriple s 0

theorem subAux_id {m : Text → Option Text} :
    ∀ {s : Text}, hasMatchAt m s = false → subAux m false s = s := by
  intro s
  induction s with
  | nil => intro _; rfl
  | cons c rest ih =>
    intro h
    rw [hasMatchAt_cons, Bool.or_eq_false_iff] at h
    rw [subAux_false_cons, if_neg (by rw [h.1]; simp), ih h.2]

theorem strip_urls_id {z : Text} (hH : hasMatchAt matchH z = false)
    (hW : hasMatchAt matchW z = false) : strip_urls z = z := by
  unfold strip_urls stripHttp stripWww
  rw [subAux_id hH, subAux_id hW]

theorem collapseSpacesAux_true_eq (s : Text) :
    collapseSpacesAux true s = collapseSpacesAux false (s.dropWhile isHWS) := by
  induction s with
  | nil => rfl
  | cons c rest ih =>
    by_cases hc : isHWS c = true
    · rw [collapseSpacesAux_cons, if_pos hc, if_pos rfl, List.dropWhile_cons_of_pos hc]
      exact ih
    · rw [collapseSpacesAux_cons, if_neg hc, List.dropWhile_cons_of_neg hc]
      rw [collapseSpacesAux_cons, if_neg hc]

theorem collapseSpaces_id :
    ∀ {s : Text}, '\t' ∉ s → occursB ([' ', ' ']) s = false →
      collapseSpacesAux false s = s := by
  intro s
  induction s with
  | nil => intro _ _; rfl
  | cons c rest ih =>
    intro htab hpair
    have htab2 : '\t' ∉ rest := fun hx => htab (List.mem_cons_of_mem _ hx)
    have hpair2 : occursB ([' ', ' ']) rest = false := by
      cases hv : occursB ([' ', ' ']) rest with
      | false => rfl
      | true =>
        rw [occursB_of_tail _ c _ hv] at hpair
        cases hpair
    by_cases hc : isHWS c = true
    · have hcsp : c = ' ' := by
        unfold isHWS at hc
        rcases Bool.or_eq_true_iff.mp hc with h | h
        · exact beq_iff_eq.mp h
        · exact absurd (beq_iff_eq.mp h ▸ List.mem_cons_self '\t' rest) htab
      rw [collapseSpacesAux_cons, if_pos hc, if_neg (by simp), collapseSpacesAux_true_eq]
      have hdrop : rest.dropWhile isHWS = rest := by
        cases rest with
        | nil => rfl
        | cons d rest2 =>
          apply List.dropWhile_cons_of_neg
          intro hd
          unfold isHWS at hd
          rcases Bool.or_eq_true_iff.mp hd with h | h
          · have hds : d = ' ' := beq_iff_eq.mp h
            have : isPre ([' ', ' ']) (c :: d :: rest2) = true := by
              simp [isPre, hcsp, hds]
            rw [occursB_of_isPre _ _ this] at hpair
            cases hpair
          · exfalso
            apply htab
            rw [← beq_iff_eq.mp h]
            exact List.mem_cons_of_mem c (List.mem_cons_self d rest2)
      rw [hdrop, ih htab2 hpair2, hcsp]
    · rw [collapseSpacesAux_cons, if_neg hc, ih htab2 hpair2]

theorem collapseNLAux_id :
    ∀ {s : Text} {k : Nat}, k ≤ 2 →
      occursB (['\n', '\n', '\n']) (List.replicate k '\n' ++ s) = false →
      collapseNLAux k s = List.replicate k '\n' ++ s := by
  intro s
  induction s with
  | nil =>
    intro k hk _
    rw [show collapseNLAux k [] = nlRun k from rfl, List.append_nil]
    unfold nlRun
    rw [if_neg (by omega)]
  | cons c rest ih =>
    intro k hk h
    by_cases hc : (c == '\n') = true
    · rw [collapseNLAux_cons, if_pos hc]
      have hcc : c = '\n' := beq_iff_eq.mp hc
      have heq : List.replicate k '\n' ++ c :: rest = List.replicate (k + 1) '\n' ++ rest := by
        rw [hcc, List.replicate_succ']
        simp
      rw [heq] at h
      by_cases hk2 : k + 1 ≤ 2
      · rw [ih hk2 h, heq]
      · exfalso
        have hk3 : k = 2 := by omega
        rw [hk3] at h
        have : isPre (['\n', '\n', '\n']) (List.replicate 3 '\n' ++ rest) = true := by
          rw [show List.replicate 3 '\n' = ['\n', '\n', '\n'] from rfl]
          exact isPre_append _ _ _ (isPre_refl _)
        rw [occursB_of_isPre _ _ this] at h
        cases h
    · rw [collapseNLAux_cons, if_neg hc]
      have h2 : occursB (['\n', '\n', '\n']) rest = false := by
        cases hv : occursB (['\n', '\n', '\n']) rest with
        | false => rfl
        | true =>
          have : occursB (['\n', '\n', '\n'])
              (List.replicate k '\n' ++ c :: rest) = true :=
            occursB_of_suffix _ _ _ (occursB_of_tail _ _ _ hv)
          rw [this] at h
          cases h
      have hrep0 : (List.replicate 0 '\n' : Text) = [] := rfl
      have h3 : occursB (['\n', '\n', '\n']) (List.replicate 0 '\n' ++ rest) = false := by
        rw [hrep0, List.nil_append]
        exact h2
      have hnl : nlRun k = List.replicate k '\n' := by
        unfold nlRun
        rw [if_neg (by omega)]
      rw [ih (by omega : (0 : Nat) ≤ 2) h3, hrep0, List.nil_append, hnl]

theorem collapseNewlines_id {s : Text}
    (h : occursB (['\n', '\n', '\n']) s = false) : collapseNewlines s = s := by
  unfold collapseNewlines
  rw [collapseNLAux_id (by omega : (0 : Nat) ≤ 2)
    (by rw [show List.replicate 0 '\n' = [] from rfl, List.nil_append]; exact h)]
  rw [show List.replicate 0 '\n' = [] from rfl, List.nil_append]

theorem joinN_splitOnNl : ∀ t : Text, joinN (splitOnNl t) = t := by
  intro t
  induction t with
  | nil => rfl
  | cons c rest ih =>
    unfold splitOnNl at ih ⊢
    by_cases hc : c = '\n'
    · rw [show splitNl1 (c :: rest) =
        (if c = '\n' then ([], (splitNl1 rest).1 :: (splitNl1 rest).2)
         else (c :: (splitNl1 rest).1, (splitNl1 rest).2)) from rfl, if_pos hc]
      rw [show joinN (([], (splitNl1 rest).1 :: (splitNl1 rest).2).1 ::
          ([], (splitNl1 rest).1 :: (splitNl1 rest).2).2) =
        '\n' :: joinN ((splitNl1 rest).1 :: (splitNl1 rest).2) from rfl]
      rw [ih, hc]
    · rw [show splitNl1 (c :: rest) =
        (if c = '\n' then ([], (splitNl1 rest).1 :: (splitNl1 rest).2)
         else (c :: (splitNl1 rest).1, (splitNl1 rest).2)) from rfl, if_neg hc]
      have hstep : joinN ((c :: (splitNl1 rest).1, (splitNl1 rest).2).1 ::
          (c :: (splitNl1 rest).1, (splitNl1 rest).2).2) =
          c :: joinN ((splitNl1 rest).1 :: (splitNl1 rest).2) := by
        cases (splitNl1 rest).2 with
        | nil => rfl
        | cons l2 ls => rfl
      rw [hstep, ih]

theorem splitNl1_cons (c : Char) (rest : Text) :
    splitNl1 (c :: rest) =
      (if c = '\n' then ([], (splitNl1 rest).1 :: (splitNl1 rest).2)
       else (c :: (splitNl1 rest).1, (splitNl1 rest).2)) := rfl

theorem splitGo_append_nl :
    ∀ (w : Text), (∀ c ∈ w, pyIsLineBreak c = true → c = '\n') →
    ∀ (cur : Text),
      splitGo cur (w ++ ['\n']) = (cur.reverse ++ (splitNl1 w).1) :: (splitNl1 w).2 := by
  intro w
  induction w with
  | nil =>
    intro _ cur
    rw [List.nil_append]
    rw [splitGo.eq_6 cur '\n'
      (fun h => absurd h (by decide)) (fun _ _ h => absurd h (by decide))
      (fun h => absurd h (by decide)) (fun _ _ h => absurd h (by decide))]
    rw [if_pos (by decide)]
    rw [show splitNl1 ([] : Text) = ([], []) from rfl]
    simp
  | cons c w2 ih =>
    intro hbr cur
    have hbr2 : ∀ x ∈ w2, pyIsLineBreak x = true → x = '\n' :=
      fun x hx => hbr x (List.mem_cons_of_mem _ hx)
    rcases (by cases w2 with
      | nil => exact ⟨'\n', [], rfl⟩
      | cons d w3 => exact ⟨d, w3 ++ ['\n'], rfl⟩ :
      ∃ d rest2, w2 ++ ['\n'] = d :: rest2) with ⟨d, rest2, hw⟩
    by_cases hc : c = '\n'
    · rw [List.cons_append, hw]
      rw [splitGo.eq_7 cur c d rest2
        (fun h => absurd (hc ▸ h) (by decide)) (fun _ _ h => absurd (hc ▸ h) (by decide))
        (fun h => absurd (hc ▸ h) (by decide)) (fun _ _ h => absurd (hc ▸ h) (by decide))]
      rw [if_pos (by rw [hc]; decide)]
      rw [← hw, ih hbr2 []]
      rw [splitNl1_cons, if_pos hc]
      simp
    · have hnb : pyIsLineBreak c = false := by
        cases hv : pyIsLineBreak c with
        | false => rfl
        | true => exact absurd (hbr c (List.mem_cons_self _ _) hv) hc
      have hcr : c ≠ '\r' := by
        intro h
        rw [h] at hnb
        exact absurd hnb (by decide)
      rw [List.cons_append, hw]
      rw [splitGo.eq_7 cur c d rest2
        (fun h => absurd h hcr) (fun _ _ h => absurd h hcr)
        (fun h => absurd h hcr) (fun _ _ h => absurd h hcr)]
      rw [if_neg (by rw [hnb]; exact Bool.false_ne_true)]
      rw [← hw, ih hbr2 (c :: cur)]
      rw [splitNl1_cons, if_neg hc]
      simp

theorem pySplitlines_append_nl {w : Text}
    (hbr : ∀ c ∈ w, pyIsLineBreak c = true → c = '\n') :
    pySplitlines (w ++ ['\n']) = splitOnNl w := by
  rcases (by cases w with
    | nil => exact ⟨'\n', [], rfl⟩
    | cons d w3 => exact ⟨d, w3 ++ ['\n'], rfl⟩ :
    ∃ d rest2, w ++ ['\n'] = d :: rest2) with ⟨d, rest2, hw⟩
  rw [hw, show pySplitlines (d :: rest2) = splitGo [] (d :: rest2) from rfl, ← hw,
    splitGo_append_nl w hbr []]
  unfold splitOnNl
  simp

theorem splitNl1_fst_nil {w : Text} (h : (splitNl1 w).1 = []) :
    w = [] ∨ ∃ w2, w = '\n' :: w2 := by
  cases w with
  | nil => exact Or.inl rfl
  | cons c w2 =>
    by_cases hc : c = '\n'
    · exact Or.inr ⟨w2, by rw [hc]⟩
    · rw [splitNl1_cons, if_neg hc] at h
      cases h

theorem lines_last_no_ws :
    ∀ {w : Text},
      (∀ c, pyIsSpace c = true → c ≠ '\n' → occursB ([c, '\n']) (w ++ ['\n']) = false) →
      ∀ l ∈ splitOnNl w, ∀ d, l.getLast? = some d → pyIsSpace d = false := by
  intro w
  induction w with
  | nil =>
    intro _ l hl d hd
    rcases List.mem_singleton.mp hl with rfl
    cases hd
  | cons c w2 ih =>
    intro hpair l hl d hd
    have hpair2 : ∀ x, pyIsSpace x = true → x ≠ '\n' →
        occursB ([x, '\n']) (w2 ++ ['\n']) = false := by
      intro x hx hxn
      cases hv : occursB ([x, '\n']) (w2 ++ ['\n']) with
      | false => rfl
      | true =>
        have h2 : occursB ([x, '\n']) ((c :: w2) ++ ['\n']) = true := by
          rw [List.cons_append]
          exact occursB_of_tail _ _ _ hv
        rw [hpair x hx hxn] at h2
        cases h2
    by_cases hc : c = '\n'
    · unfold splitOnNl at hl
      rw [splitNl1_cons, if_pos hc] at hl
      rcases List.mem_cons.mp hl with rfl | hl2
      · cases hd
      · exact ih hpair2 l hl2 d hd
    · unfold splitOnNl at hl
      rw [splitNl1_cons, if_neg hc] at hl
      rcases List.mem_cons.mp hl with rfl | hl2
      · -- l = c :: (splitNl1 w2).1
        cases hp1 : (splitNl1 w2).1 with
        | nil =>
          rw [hp1] at hd
          simp only [List.getLast?_singleton, Option.some.injEq] at hd
          rcases splitNl1_fst_nil hp1 with hw2 | ⟨w3, hw3⟩
          · cases hws : pyIsSpace d with
            | false => rfl
            | true =>
              exfalso
              have hdn : d ≠ '\n' := by rw [← hd]; exact hc
              have hthis := hpair d hws hdn
              rw [hw2] at hthis
              have hocc : occursB ([d, '\n']) ((c :: ([] : Text)) ++ ['\n']) = true := by
                apply occursB_of_isPre
                simp [isPre, hd]
              rw [hocc] at hthis
              cases hthis
          · cases hws : pyIsSpace d with
            | false => rfl
            | true =>
              exfalso
              have hdn : d ≠ '\n' := by rw [← hd]; exact hc
              have := hpair d hws hdn
              have hocc : occursB ([d, '\n']) ((c :: w2) ++ ['\n']) = true := by
                apply occursB_of_isPre
                rw [hw3]
                simp [isPre, hd]
              rw [hocc] at this
              cases this
        | cons e p1t =>
          rw [hp1] at hd
          rw [List.getLast?_cons_cons] at hd
          refine ih hpair2 (splitNl1 w2).1 ?_ d ?_
          · unfold splitOnNl
            exact List.mem_cons_self _ _
          · rw [hp1]
            exact hd
      · refine ih hpair2 l ?_ d hd
        unfold splitOnNl
        exact List.mem_cons_of_mem _ hl2

theorem dropWhile_id_of_head {q : Char → Bool} {l : Text}
    (h : ∀ d, l.head? = some d → q d = false) : l.dropWhile q = l := by
  cases l with
  | nil => rfl
  | cons c rest => exact List.dropWhile_cons_of_neg (by simp [h c rfl])

theorem pyRstrip_id {l : Text} (h : ∀ d, l.getLast? = some d → pyIsSpace d = false) :
    pyRstrip l = l := by
  unfold pyRstrip
  cases hr : l.reverse with
  | nil =>
    rw [List.dropWhile_nil, List.reverse_nil]
    rw [← List.reverse_reverse l, hr, List.reverse_nil]
  | cons d t =>
    have hd : l.getLast? = some d := by
      rw [← List.head?_reverse, hr]
      rfl
    rw [List.dropWhile_cons_of_neg (by simp [h d hd]), ← hr, List.reverse_reverse]

theorem pyStrip_id {s : Text} (hh : ∀ d, s.head? = some d → pyIsSpace d = false)
    (hl : ∀ d, s.getLast? = some d → pyIsSpace d = false) : pyStrip s = s := by
  show ((s.dropWhile pyIsSpace).reverse.dropWhile pyIsSpace).reverse = s
  rw [dropWhile_id_of_head hh]
  exact pyRstrip_id hl

theorem map_self {f : Text → Text} :
    ∀ {ls : List Text}, (∀ l ∈ ls, f l = l) → ls.map f = ls := by
  intro ls
  induction ls with
  | nil => intro _; rfl
  | cons l ls ih =>
    intro h
    rw [List.map_cons, h l (List.mem_cons_self _ _),
      ih (fun x hx => h x (List.mem_cons_of_mem _ hx))]

theorem post_id {w : Text}
    (hbr : ∀ c ∈ w, pyIsLineBreak c = true → c = '\n')
    (hpair : ∀ c, pyIsSpace c = true → c ≠ '\n' → occursB ([c, '\n']) (w ++ ['\n']) = false)
    (hh : ∀ d, w.head? = some d → pyIsSpace d = false)
    (hl : ∀ d, w.getLast? = some d → pyIsSpace d = false) :
    pyStrip (joinN ((pySplitlines (w ++ ['\n'])).map pyRstrip)) ++ ['\n'] = w ++ ['\n'] := by
  rw [pySplitlines_append_nl hbr]
  rw [map_self (fun l hlmem => pyRstrip_id (lines_last_no_ws hpair l hlmem))]
  rw [joinN_splitOnNl]
  rw [pyStrip_id hh hl]

theorem occursB_pair_all_nl {c d : Char} (hc : c ≠ '\n') :
    ∀ {t : Text}, (∀ x ∈ t, x = '\n') → occursB ([c, d]) t = false := by
  intro t
  induction t with
  | nil => intro _; rfl
  | cons x t2 ih =>
    intro h
    rw [occursB_cons]
    have hx : x = '\n' := h x (List.mem_cons_self _ _)
    have h1 : isPre ([c, d]) (x :: t2) = false := by
      simp only [isPre, Bool.and_eq_true, Bool.and_eq_false_iff]
      left
      rw [beq_eq_false_iff_ne]
      rw [hx]
      exact hc
    rw [h1, Bool.false_or]
    exact ih (fun y hy => h y (List.mem_cons_of_mem _ hy))

theorem pair_eq_append {α : Type} {x y : α} {p1 p2 : List α}
    (h : p1 ++ p2 = [x, y]) (h1 : p1 ≠ []) (h2 : p2 ≠ []) :
    p1 = [x] ∧ p2 = [y] := by
  cases p1 with
  | nil => exact absurd rfl h1
  | cons a p1t =>
    rw [List.cons_append] at h
    injection h with ha hrest
    cases p1t with
    | nil =>
      rw [List.nil_append] at hrest
      exact ⟨by rw [ha], hrest⟩
    | cons b p1t2 =>
      rw [List.cons_append] at hrest
      injection hrest with hb hrest2
      rcases List.append_eq_nil.mp hrest2 with ⟨_, hp2⟩
      exact absurd hp2 h2

theorem isPre_nl_head {u : Text} (h : isPre (['\n']) u = true) :
    ∃ u2, u = '\n' :: u2 := by
  cases u with
  | nil => simp [isPre] at h
  | cons x u2 =>
    simp only [isPre, Bool.and_eq_true, beq_iff_eq] at h
    exact ⟨u2, by rw [← h.1]⟩

theorem collapseNLAux_zero_head_nl {rest : Text}
    (h : ∃ u2, collapseNLAux 0 rest = '\n' :: u2) : ∃ r2, rest = '\n' :: r2 := by
  cases rest with
  | nil =>
    rcases h with ⟨u2, hu⟩
    cases hu
  | cons e r2 =>
    by_cases he : (e == '\n') = true
    · exact ⟨r2, by rw [beq_iff_eq.mp he]⟩
    · rcases h with ⟨u2, hu⟩
      rw [collapseNLAux_cons, if_neg he, show nlRun 0 = [] from rfl, List.nil_append] at hu
      injection hu with he2 _
      exact absurd (beq_iff_eq.mpr he2) he

theorem collapseNLAux_pair {c : Char} (hc : c ≠ '\n') :
    ∀ {s : Text} (k : Nat), occursB ([c, '\n']) (collapseNLAux k s) = true →
      occursB ([c, '\n']) s = true := by
  intro s
  induction s with
  | nil =>
    intro k h
    rw [show collapseNLAux k [] = nlRun k from rfl,
      occursB_pair_all_nl hc (nlRun_all_nl k)] at h
    cases h
  | cons d rest ih =>
    intro k h
    by_cases hd : (d == '\n') = true
    · rw [collapseNLAux_cons, if_pos hd] at h
      exact occursB_of_tail _ _ _ (ih (k + 1) h)
    · rw [collapseNLAux_cons, if_neg hd] at h
      rcases occursB_append_split h with h | h | ⟨p1, p2, hp12, hp1, hp2, hpre, _, _⟩
      · rw [occursB_pair_all_nl hc (nlRun_all_nl k)] at h
        cases h
      · rw [occursB_cons, Bool.or_eq_true] at h
        rcases h with h | h
        · simp only [isPre, Bool.and_eq_true, beq_iff_eq] at h
          rcases isPre_nl_head h.2 with ⟨u2, hu⟩
          rcases collapseNLAux_zero_head_nl ⟨u2, hu⟩ with ⟨r2, hr2⟩
          apply occursB_of_isPre
          rw [hr2]
          simp [isPre, h.1]
        · exact occursB_of_tail _ _ _ (ih 0 h)
      · rcases pair_eq_append hp12.symm hp1 hp2 with ⟨hpa, hpb⟩
        rw [hpb] at hpre
        rcases isPre_nl_head hpre with ⟨u2, hu⟩
        injection hu with hdd _
        exact absurd (beq_iff_eq.mpr hdd) hd

theorem collapseNLAux_append_nl :
    ∀ {w : Text} (k : Nat), w ≠ [] → (∀ d, w.getLast? = some d → d ≠ '\n') →
      collapseNLAux k (w ++ ['\n']) = collapseNLAux k w ++ ['\n'] := by
  intro w
  induction w with
  | nil => intro k h _; exact absurd rfl h
  | cons e w2 ih =>
    intro k _ hlast
    by_cases he : (e == '\n') = true
    · have hw2 : w2 ≠ [] := by
        intro hcon
        rw [hcon] at hlast
        exact hlast e (by rw [beq_iff_eq.mp he]; rfl) (beq_iff_eq.mp he)
      have hlast2 : ∀ d, w2.getLast? = some d → d ≠ '\n' := by
        intro d hdl
        apply hlast
        cases w2 with
        | nil => exact absurd rfl hw2
        | cons f w3 => rw [List.getLast?_cons_cons]; exact hdl
      rw [List.cons_append, collapseNLAux_cons, if_pos he, collapseNLAux_cons, if_pos he]
      exact ih (k + 1) hw2 hlast2
    · rw [List.cons_append, collapseNLAux_cons, if_neg he, collapseNLAux_cons, if_neg he]
      cases hw2 : w2 with
      | nil =>
        rw [show collapseNLAux 0 ([] ++ ['\n'] : Text) = ['\n'] from rfl,
          show collapseNLAux 0 ([] : Text) = [] from rfl]
        simp
      | cons f w3 =>
        have hw2ne : w2 ≠ [] := by rw [hw2]; simp
        have hlast2 : ∀ d, w2.getLast? = some d → d ≠ '\n' := by
          intro d hdl
          apply hlast
          rw [hw2] at hdl ⊢
          rw [List.getLast?_cons_cons]
          exact hdl
        rw [← hw2, ih 0 hw2ne hlast2]
        simp

theorem collapseNLAux_ne_nil :
    ∀ {s : Text} (k : Nat), s ≠ [] → collapseNLAux k s ≠ [] := by
  intro s
  induction s with
  | nil => intro k h; exact absurd rfl h
  | cons e rest ih =>
    intro k _
    by_cases he : (e == '\n') = true
    · rw [collapseNLAux_cons, if_pos he]
      cases hr : rest with
      | nil =>
        rw [show collapseNLAux (k + 1) ([] : Text) = nlRun (k + 1) from rfl]
        rcases nlRun_pos (by omega : 1 ≤ k + 1) with ⟨t, ht⟩
        rw [ht]
        simp
      | cons f r2 =>
        rw [← hr]
        exact ih (k + 1) (by rw [hr]; simp)
    · rw [collapseNLAux_cons, if_neg he]
      intro hcon
      rcases List.append_eq_nil.mp hcon with ⟨_, h2⟩
      cases h2

theorem collapseNLAux_getLast {dd : Char} (hdd : dd ≠ '\n') :
    ∀ {w : Text} (k : Nat), w.getLast? = some dd →
      (collapseNLAux k w).getLast? = some dd := by
  intro w
  induction w with
  | nil => intro k h; cases h
  | cons e w2 ih =>
    intro k hlast
    by_cases hw2 : w2 = []
    · subst hw2
      have hde : e = dd := by
        have h1 : (e :: ([] : Text)).getLast? = some e := rfl
        rw [h1] at hlast
        injection hlast
      have hne : (e == '\n') = false := by
        rw [beq_eq_false_iff_ne, hde]
        exact hdd
      rw [collapseNLAux_cons, if_neg (by rw [hne]; exact Bool.false_ne_true)]
      rw [show collapseNLAux 0 ([] : Text) = [] from rfl]
      rw [show nlRun k ++ e :: ([] : Text) = nlRun k ++ [e] from rfl, List.getLast?_concat, hde]
    · have hlast2 : w2.getLast? = some dd := by
        rcases List.exists_cons_of_ne_nil hw2 with ⟨f, w3, hfw⟩
        rw [hfw] at hlast ⊢
        rw [List.getLast?_cons_cons] at hlast
        exact hlast
      by_cases he : (e == '\n') = true
      · rw [collapseNLAux_cons, if_pos he]
        exact ih (k + 1) hlast2
      · rw [collapseNLAux_cons, if_neg he]
        have htail := ih 0 hlast2
        have hne2 : collapseNLAux 0 w2 ≠ [] := collapseNLAux_ne_nil 0 hw2
        rw [List.getLast?_append]
        cases hx : collapseNLAux 0 w2 with
        | nil => exact absurd hx hne2
        | cons y ys =>
          rw [hx] at htail
          rw [List.getLast?_cons_cons, htail]
          rfl

theorem mem_collapseNLAux {c : Char} :
    ∀ {s : Text} {k : Nat}, c ∈ collapseNLAux k s → c = '\n' ∨ c ∈ s := by
  intro s
  induction s with
  | nil =>
    intro k h
    rw [show collapseNLAux k [] = nlRun k from rfl] at h
    exact Or.inl (nlRun_all_nl k c h)
  | cons d rest ih =>
    intro k h
    by_cases hd : (d == '\n') = true
    · rw [collapseNLAux_cons, if_pos hd] at h
      rcases ih h with h2 | h2
      · exact Or.inl h2
      · exact Or.inr (List.mem_cons_of_mem _ h2)
    · rw [collapseNLAux_cons, if_neg hd] at h
      rcases List.mem_append.mp h with h2 | h2
      · exact Or.inl (nlRun_all_nl k c h2)
      · rcases List.mem_cons.mp h2 with h3 | h3
        · exact Or.inr (by rw [h3]; exact List.mem_cons_self _ _)
        · rcases ih h3 with h4 | h4
          · exact Or.inl h4
          · exact Or.inr (List.mem_cons_of_mem _ h4)

theorem collapseSpacesAux_no_tab :
    ∀ {s : Text} (flag : Bool), '\t' ∉ collapseSpacesAux flag s := by
  intro s
  induction s with
  | nil => intro flag h; cases h
  | cons c rest ih =>
    intro flag h
    by_cases hc : isHWS c = true
    · rw [collapseSpacesAux_cons, if_pos hc] at h
      cases hflag : flag with
      | true =>
        rw [hflag, if_pos rfl] at h
        exact ih true h
      | false =>
        rw [hflag, if_neg (by simp)] at h
        rcases List.mem_cons.mp h with h2 | h2
        · cases h2
        · exact ih true h2
    · rw [collapseSpacesAux_cons, if_neg hc] at h
      rcases List.mem_cons.mp h with h2 | h2
      · apply hc
        rw [← h2]
        decide
      · exact ih false h2

theorem mem_pyRstrip {c : Char} {l : Text} (h : c ∈ pyRstrip l) : c ∈ l := by
  rcases pyRstrip_decomp l with ⟨b, hb⟩
  rw [hb]
  exact List.mem_append.mpr (Or.inl h)

theorem mem_pyStrip {c : Char} {s : Text} (h : c ∈ pyStrip s) : c ∈ s := by
  rcases pyStrip_decomp s with ⟨a, b, hab⟩
  rw [hab]
  exact List.mem_append.mpr (Or.inl (List.mem_append.mpr (Or.inr h)))

theorem mem_joinN {c : Char} :
    ∀ {ls : List Text}, c ∈ joinN ls → c = '\n' ∨ ∃ l ∈ ls, c ∈ l := by
  intro ls
  induction ls with
  | nil => intro h; cases h
  | cons l ls2 ih =>
    intro h
    cases ls2 with
    | nil =>
      rw [show joinN [l] = l from rfl] at h
      exact Or.inr ⟨l, List.mem_singleton.mpr rfl, h⟩
    | cons l2 ls3 =>
      rw [show joinN (l :: l2 :: ls3) = l ++ '\n' :: joinN (l2 :: ls3) from rfl] at h
      rcases List.mem_append.mp h with h2 | h2
      · exact Or.inr ⟨l, List.mem_cons_self _ _, h2⟩
      · rcases List.mem_cons.mp h2 with h3 | h3
        · exact Or.inl h3
        · rcases ih h3 with h4 | ⟨l3, hl3, h4⟩
          · exact Or.inl h4
          · exact Or.inr ⟨l3, List.mem_cons_of_mem _ hl3, h4⟩

theorem dropWhile_head_not {q : Char → Bool} :
    ∀ {l : Text} {d : Char}, (l.dropWhile q).head? = some d → q d = false := by
  intro l
  induction l with
  | nil => intro d h; cases h
  | cons c rest ih =>
    intro d h
    by_cases hc : q c = true
    · rw [List.dropWhile_cons_of_pos hc] at h
      exact ih h
    · rw [List.dropWhile_cons_of_neg hc] at h
      injection h with h2
      rw [← h2]
      cases hv : q c with
      | false => rfl
      | true => exact absurd hv hc

theorem pyRstrip_last {l : Text} {d : Char} (h : (pyRstrip l).getLast? = some d) :
    pyIsSpace d = false := by
  unfold pyRstrip at h
  rw [List.getLast?_reverse] at h
  exact dropWhile_head_not h

theorem pyStrip_last {s : Text} {d : Char} (h : (pyStrip s).getLast? = some d) :
    pyIsSpace d = false := by
  unfold pyStrip at h
  rw [List.getLast?_reverse] at h
  exact dropWhile_head_not h

theorem pyStrip_head {s : Text} {d : Char} (h : (pyStrip s).head? = some d) :
    pyIsSpace d = false := by
  have hps : pyStrip s = pyRstrip (s.dropWhile pyIsSpace) := rfl
  rw [hps] at h
  rcases pyRstrip_decomp (s.dropWhile pyIsSpace) with ⟨b, hb⟩
  cases hr : pyRstrip (s.dropWhile pyIsSpace) with
  | nil =>
    rw [hr] at h
    cases h
  | cons e t =>
    rw [hr] at h hb
    injection h with h2
    have h3 : (s.dropWhile pyIsSpace).head? = some e := by
      rw [hb]
      rfl
    rw [h2] at h3
    exact dropWhile_head_not h3

theorem getLast?_some_of_ne_nil : ∀ {l : Text}, l ≠ [] → ∃ d, l.getLast? = some d := by
  intro l
  induction l with
  | nil => intro h; exact absurd rfl h
  | cons c l2 ih =>
    intro _
    cases hl2 : l2 with
    | nil => exact ⟨c, rfl⟩
    | cons d l3 =>
      rcases ih (by rw [hl2]; simp) with ⟨dd, hdd⟩
      refine ⟨dd, ?_⟩
      rw [List.getLast?_cons_cons, ← hl2]
      exact hdd

theorem occursB_mem {p s : Text} (h : occursB p s = true) : ∀ c ∈ p, c ∈ s := by
  intro c hc
  rcases occursB_exists h with ⟨a, b, heq, hpre⟩
  rw [heq]
  apply List.mem_append.mpr
  right
  rw [isPre_decomp hpre]
  exact List.mem_append.mpr (Or.inl hc)

theorem collapseSpacesAux_true_head :
    ∀ {s : Text} {d : Char}, (collapseSpacesAux true s).head? = some d →
      isHWS d = false := by
  intro s
  induction s with
  | nil => intro d h; cases h
  | cons c rest ih =>
    intro d h
    by_cases hc : isHWS c = true
    · rw [collapseSpacesAux_cons, if_pos hc, if_pos rfl] at h
      exact ih h
    · rw [collapseSpacesAux_cons, if_neg hc] at h
      injection h with h2
      rw [← h2]
      cases hv : isHWS c with
      | false => rfl
      | true => exact absurd hv hc

theorem collapseSpaces_no_pair :
    ∀ {s : Text} (flag : Bool), occursB ([' ', ' ']) (collapseSpacesAux flag s) = false := by
  intro s
  induction s with
  | nil => intro flag; rfl
  | cons c rest ih =>
    intro flag
    by_cases hc : isHWS c = true
    · cases flag with
      | true =>
        rw [collapseSpacesAux_cons, if_pos hc, if_pos rfl]
        exact ih true
      | false =>
        rw [collapseSpacesAux_cons, if_pos hc, if_neg (by simp)]
        rw [occursB_cons, Bool.or_eq_false_iff]
        refine ⟨?_, ih true⟩
        cases hu : collapseSpacesAux true rest with
        | nil => decide
        | cons d u2 =>
          have hd : isHWS d = false := collapseSpacesAux_true_head (by rw [hu]; rfl)
          have hd2 : (' ' == d) = false := by
            rw [beq_eq_false_iff_ne]
            intro hcon
            rw [← hcon] at hd
            exact absurd hd (by decide)
          simp [isPre, hd2]
    · rw [collapseSpacesAux_cons, if_neg hc]
      rw [occursB_cons, Bool.or_eq_false_iff]
      refine ⟨?_, ih false⟩
      have hc2 : (' ' == c) = false := by
        rw [beq_eq_false_iff_ne]
        intro hcon
        rw [← hcon] at hc
        exact hc (by decide)
      simp [isPre, hc2]

theorem splitGo_no_break : ∀ (cur s : Text),
    (∀ x ∈ cur, pyIsLineBreak x = false) →
    ∀ l ∈ splitGo cur s, ∀ x ∈ l, pyIsLineBreak x = false := by
  intro cur s
  induction cur, s using splitGo.induct with
  | case1 cur =>
    intro hcur l hl x hx
    rw [splitGo.eq_1] at hl
    rw [List.mem_singleton.mp hl] at hx
    exact hcur x (List.mem_reverse.mp hx)
  | case2 cur =>
    intro hcur l hl x hx
    rw [splitGo.eq_2] at hl
    rw [List.mem_singleton.mp hl] at hx
    exact hcur x (List.mem_reverse.mp hx)
  | case3 cur c rest ih =>
    intro hcur l hl x hx
    rw [splitGo.eq_3] at hl
    rcases List.mem_cons.mp hl with hl | hl
    · rw [hl] at hx
      exact hcur x (List.mem_reverse.mp hx)
    · exact ih (fun y hy => absurd hy (List.not_mem_nil y)) l hl x hx
  | case4 cur =>
    intro hcur l hl x hx
    rw [splitGo.eq_4] at hl
    rw [List.mem_singleton.mp hl] at hx
    exact hcur x (List.mem_reverse.mp hx)
  | case5 cur c rest h1 h2 ih =>
    intro hcur l hl x hx
    rw [splitGo.eq_5 cur c rest h1 h2] at hl
    rcases List.mem_cons.mp hl with hl | hl
    · rw [hl] at hx
      exact hcur x (List.mem_reverse.mp hx)
    · exact ih (fun y hy => absurd hy (List.not_mem_nil y)) l hl x hx
  | case6 cur c hbr h1 h2 h3 h4 =>
    intro hcur l hl x hx
    rw [splitGo.eq_6 cur c h1 h2 h3 h4, if_pos hbr] at hl
    rw [List.mem_singleton.mp hl] at hx
    exact hcur x (List.mem_reverse.mp hx)
  | case7 cur c hbr d rest2 h1 h2 h3 h4 ih =>
    intro hcur l hl x hx
    rw [splitGo.eq_7 cur c d rest2 h1 h2 h3 h4, if_pos hbr] at hl
    rcases List.mem_cons.mp hl with hl | hl
    · rw [hl] at hx
      exact hcur x (List.mem_reverse.mp hx)
    · exact ih (fun y hy => absurd hy (List.not_mem_nil y)) l hl x hx
  | case8 cur c rest h1 h2 h3 h4 hbr ih =>
    intro hcur l hl x hx
    have hl2 : l ∈ splitGo (c :: cur) rest := by
      cases rest with
      | nil =>
        rw [splitGo.eq_6 cur c h1 h2 h3 h4, if_neg hbr] at hl
        exact hl
      | cons d rest2 =>
        rw [splitGo.eq_7 cur c d rest2 h1 h2 h3 h4, if_neg hbr] at hl
        exact hl
    have hcur2 : ∀ y ∈ c :: cur, pyIsLineBreak y = false := by
      intro y hy
      rcases List.mem_cons.mp hy with hy | hy
      · rw [hy]
        cases hv : pyIsLineBreak c with
        | false => rfl
        | true => exact absurd hv hbr
      · exact hcur y hy
    exact ih hcur2 l hl2 x hx

theorem pySplitlines_no_break {s l : Text} (hl : l ∈ pySplitlines s) :
    ∀ x ∈ l, pyIsLineBreak x = false := by
  cases s with
  | nil =>
    rw [show pySplitlines [] = [] from rfl] at hl
    cases hl
  | cons c rest =>
    rw [show pySplitlines (c :: rest) = splitGo [] (c :: rest) from rfl] at hl
    exact splitGo_no_break [] (c :: rest)
      (fun y hy => absurd hy (List.not_mem_nil y)) l hl

theorem joinN_no_pair {c : Char} (hcw : pyIsSpace c = true) (hcn : c ≠ '\n') :
    ∀ {ls : List Text},
      (∀ l ∈ ls, '\n' ∉ l) →
      (∀ l ∈ ls, ∀ d, l.getLast? = some d → pyIsSpace d = false) →
      occursB ([c, '\n']) (joinN ls) = false := by
  intro ls
  induction ls with
  | nil => intro _ _; rfl
  | cons l ls2 ih =>
    intro hnl hlast
    cases ls2 with
    | nil =>
      rw [show joinN [l] = l from rfl]
      cases hv : occursB ([c, '\n']) l with
      | false => rfl
      | true =>
        exact absurd (occursB_mem hv '\n' (by simp)) (hnl l (List.mem_singleton.mpr rfl))
    | cons l2 ls3 =>
      rw [show joinN (l :: l2 :: ls3) = l ++ '\n' :: joinN (l2 :: ls3) from rfl]
      cases hv : occursB ([c, '\n']) (l ++ '\n' :: joinN (l2 :: ls3)) with
      | false => rfl
      | true =>
        exfalso
        rcases occursB_append_split hv with h | h | ⟨p1, p2, hp12, hp1, hp2, hpre, a1, ha1⟩
        · exact absurd (occursB_mem h '\n' (by simp)) (hnl l (List.mem_cons_self _ _))
        · rw [occursB_cons, Bool.or_eq_true] at h
          rcases h with h | h
          · simp only [isPre, Bool.and_eq_true, beq_iff_eq] at h
            exact hcn h.1
          · have hih := ih (fun y hy => hnl y (List.mem_cons_of_mem _ hy))
              (fun y hy => hlast y (List.mem_cons_of_mem _ hy))
            rw [hih] at h
            cases h
        · rcases pair_eq_append hp12.symm hp1 hp2 with ⟨hpa, _⟩
          rw [hpa] at ha1
          have hlc : l.getLast? = some c := by
            rw [ha1]
            exact List.getLast?_concat _
          have := hlast l (List.mem_cons_self _ _) c hlc
          rw [hcw] at this
          cases this

theorem post_SemiNF {t3 : Text}
    (hH : hasMatchAt matchH t3 = false)
    (hW : hasMatchAt matchW t3 = false)
    (htab : '\t' ∉ t3)
    (hsp : occursB ([' ', ' ']) t3 = false) :
    SemiNF (pyStrip (joinN ((pySplitlines t3).map pyRstrip)) ++ ['\n']) := by
  refine ⟨hasH_false_transport (fun p hp h => post_occurs_transport (allNS_no_nl hp) h) hH,
    hasW_false_transport (fun p hp h => post_occurs_transport (allNS_no_nl hp) h) hW,
    ?_, ?_, ?_, ?_,
    pyStrip (joinN ((pySplitlines t3).map pyRstrip)), rfl,
    fun d hd => pyStrip_head hd, fun d hd => pyStrip_last hd⟩
  · intro hx
    rcases List.mem_append.mp hx with h | h
    · rcases mem_joinN (mem_pyStrip h) with h2 | ⟨l, hlmem, h2⟩
      · exact absurd h2 (by decide)
      · rcases List.mem_map.mp hlmem with ⟨l0, hl0, hmap⟩
        rw [← hmap] at h2
        have h3 := mem_pyRstrip h2
        rcases pySplitlines_infix hl0 with ⟨a, b, hab⟩
        apply htab
        rw [hab]
        exact List.mem_append.mpr (Or.inl (List.mem_append.mpr (Or.inr h3)))
    · exact absurd (List.mem_singleton.mp h) (by decide)
  · cases hv : occursB ([' ', ' '])
        (pyStrip (joinN ((pySplitlines t3).map pyRstrip)) ++ ['\n']) with
    | false => rfl
    | true =>
      exfalso
      have h2 := post_occurs_transport (by decide : '\n' ∉ ([' ', ' '] : Text)) hv
      rw [hsp] at h2
      cases h2
  · intro c hc hcbr
    rcases List.mem_append.mp hc with h | h
    · rcases mem_joinN (mem_pyStrip h) with h2 | ⟨l, hlmem, h2⟩
      · exact h2
      · exfalso
        rcases List.mem_map.mp hlmem with ⟨l0, hl0, hmap⟩
        rw [← hmap] at h2
        have h4 := pySplitlines_no_break hl0 c (mem_pyRstrip h2)
        rw [hcbr] at h4
        cases h4
    · exact List.mem_singleton.mp h
  · intro c hcw hcn
    cases hv : occursB ([c, '\n'])
        (pyStrip (joinN ((pySplitlines t3).map pyRstrip)) ++ ['\n']) with
    | false => rfl
    | true =>
      exfalso
      rcases occursB_append_split hv with h | h | ⟨p1, p2, hp12, hp1, hp2, hpre, a1, ha1⟩
      · have h2 := occursB_pyStrip h
        have hnl : ∀ l ∈ (pySplitlines t3).map pyRstrip, '\n' ∉ l := by
          intro l hlmem hx
          rcases List.mem_map.mp hlmem with ⟨l0, hl0, hmap⟩
          rw [← hmap] at hx
          have h3 := pySplitlines_no_break hl0 '\n' (mem_pyRstrip hx)
          exact absurd h3 (by decide)
        have hlast : ∀ l ∈ (pySplitlines t3).map pyRstrip, ∀ d, l.getLast? = some d →
            pyIsSpace d = false := by
          intro l hlmem d hd
          rcases List.mem_map.mp hlmem with ⟨l0, _, hmap⟩
          rw [← hmap] at hd
          exact pyRstrip_last hd
        rw [joinN_no_pair hcw hcn hnl hlast] at h2
        cases h2
      · rw [occursB_cons, Bool.or_eq_true] at h
        rcases h with h | h
        · have h2 : isPre ([c, '\n']) (['\n'] : Text) = ((c == '\n') && false) := rfl
          rw [h2, Bool.and_false] at h
          cases h
        · rw [show occursB ([c, '\n']) ([] : Text) = false from rfl] at h
          cases h
      · rcases pair_eq_append hp12.symm hp1 hp2 with ⟨hpa, _⟩
        rw [hpa] at ha1
        have hlc : (pyStrip (joinN ((pySplitlines t3).map pyRstrip))).getLast? = some c := by
          rw [ha1]
          exact List.getLast?_concat _
        have h5 := pyStrip_last hlc
        rw [hcw] at h5
        cases h5

theorem normalize_SemiNF (x : Text) : SemiNF (normalize x) := by
  have hH1 := strip_urls_no_http x
  have hW1 := strip_urls_no_www x
  have hH2 : hasMatchAt matchH (collapseSpaces (strip_urls x)) = false :=
    hasH_false_transport (fun p hp h => collapseSpacesAux_occurs (allNS_no_space hp) false h) hH1
  have hW2 : hasMatchAt matchW (collapseSpaces (strip_urls x)) = false :=
    hasW_false_transport (fun p hp h => collapseSpacesAux_occurs (allNS_no_space hp) false h) hW1
  have hH3 : hasMatchAt matchH (collapseNewlines (collapseSpaces (strip_urls x))) = false :=
    hasH_false_transport (fun p hp h => collapseNLAux_occurs (allNS_no_nl hp) 0 h) hH2
  have hW3 : hasMatchAt matchW (collapseNewlines (collapseSpaces (strip_urls x))) = false :=
    hasW_false_transport (fun p hp h => collapseNLAux_occurs (allNS_no_nl hp) 0 h) hW2
  have htab3 : '\t' ∉ collapseNewlines (collapseSpaces (strip_urls x)) := by
    intro hx
    rcases mem_collapseNLAux hx with h | h
    · exact absurd h (by decide)
    · exact collapseSpacesAux_no_tab false h
  have hsp3 : occursB ([' ', ' ']) (collapseNewlines (collapseSpaces (strip_urls x))) = false := by
    cases hv : occursB ([' ', ' ']) (collapseNewlines (collapseSpaces (strip_urls x))) with
    | false => rfl
    | true =>
      exfalso
      have h2 := collapseNLAux_occurs (by decide : '\n' ∉ ([' ', ' '] : Text)) 0 hv
      have h3 : occursB ([' ', ' ']) (collapseSpaces (strip_urls x)) = false :=
        collapseSpaces_no_pair false
      rw [h3] at h2
      cases h2
  exact post_SemiNF hH3 hW3 htab3 hsp3

theorem normalize_of_SemiNF {z : Text} (h : SemiNF z) :
    normalize z = collapseNewlines z := by
  obtain ⟨hH, hW, htab, hsp, hbr, hpr, w, hzw, hwh, hwl⟩ := h
  have h1 : strip_urls z = z := strip_urls_id hH hW
  have h2 : collapseSpaces z = z := collapseSpaces_id htab hsp
  have hnorm : normalize z =
      pyStrip (joinN ((pySplitlines (collapseNewlines (collapseSpaces (strip_urls z)))).map
        pyRstrip)) ++ ['\n'] := rfl
  rw [hnorm, h1, h2]
  by_cases hw : w = []
  · subst hw
    rw [List.nil_append] at hzw
    rw [hzw]
    decide
  · have hwlast : ∀ d, w.getLast? = some d → d ≠ '\n' := by
      intro d hd hcon
      have h3 := hwl d hd
      rw [hcon] at h3
      exact absurd h3 (by decide)
    have hcnl : collapseNewlines z = collapseNLAux 0 w ++ ['\n'] := by
      rw [hzw]
      exact collapseNLAux_append_nl 0 hw hwlast
    rw [hcnl]
    apply post_id
    · intro c hc hcbr
      rcases mem_collapseNLAux hc with h3 | h3
      · exact h3
      · exact hbr c (by rw [hzw]; exact List.mem_append.mpr (Or.inl h3)) hcbr
    · intro c hcw hcn
      cases hv : occursB ([c, '\n']) (collapseNLAux 0 w ++ ['\n']) with
      | false => rfl
      | true =>
        exfalso
        rw [← collapseNLAux_append_nl 0 hw hwlast] at hv
        have h3 := collapseNLAux_pair hcn 0 hv
        rw [← hzw] at h3
        rw [hpr c hcw hcn] at h3
        cases h3
    · intro d hd
      cases hwc : w with
      | nil => exact absurd hwc hw
      | cons e w2 =>
        have hews : pyIsSpace e = false := hwh e (by rw [hwc]; rfl)
        have hene : (e == '\n') = false := by
          rw [beq_eq_false_iff_ne]
          intro hcon
          rw [hcon] at hews
          exact absurd hews (by decide)
        rw [hwc, collapseNLAux_cons, if_neg (by rw [hene]; exact Bool.false_ne_true)] at hd
        rw [show nlRun 0 = ([] : Text) from rfl, List.nil_append] at hd
        injection hd with hd2
        rw [← hd2]
        exact hews
    · intro d hd
      rcases getLast?_some_of_ne_nil hw with ⟨dd, hdd⟩
      have hv := collapseNLAux_getLast (hwlast dd hdd) 0 hdd
      rw [hv] at hd
      injection hd with hd2
      rw [← hd2]
      exact hwl dd hdd

theorem collapseNewlines_SemiNF {z : Text} (h : SemiNF z) : SemiNF (collapseNewlines z) := by
  obtain ⟨hH, hW, htab, hsp, hbr, hpr, w, hzw, hwh, hwl⟩ := h
  refine ⟨hasH_false_transport (fun p hp h2 => collapseNLAux_occurs (allNS_no_nl hp) 0 h2) hH,
    hasW_false_transport (fun p hp h2 => collapseNLAux_occurs (allNS_no_nl hp) 0 h2) hW,
    ?_, ?_, ?_, ?_, ?_⟩
  · intro hx
    rcases mem_collapseNLAux hx with h2 | h2
    · exact absurd h2 (by decide)
    · exact htab h2
  · cases hv : occursB ([' ', ' ']) (collapseNewlines z) with
    | false => rfl
    | true =>
      exfalso
      have h2 := collapseNLAux_occurs (by decide : '\n' ∉ ([' ', ' '] : Text)) 0 hv
      rw [hsp] at h2
      cases h2
  · intro c hc hcbr
    rcases mem_collapseNLAux hc with h2 | h2
    · exact h2
    · exact hbr c h2 hcbr
  · intro c hcw hcn
    cases hv : occursB ([c, '\n']) (collapseNewlines z) with
    | false => rfl
    | true =>
      exfalso
      have h2 := collapseNLAux_pair hcn 0 hv
      rw [hpr c hcw hcn] at h2
      cases h2
  · by_cases hw : w = []
    · subst hw
      rw [List.nil_append] at hzw
      refine ⟨[], ?_, ?_, ?_⟩
      · rw [hzw]
        decide
      · intro d hd
        cases hd
      · intro d hd
        cases hd
    · have hwlast : ∀ d, w.getLast? = some d → d ≠ '\n' := by
        intro d hd hcon
        have h3 := hwl d hd
        rw [hcon] at h3
        exact absurd h3 (by decide)
      refine ⟨collapseNLAux 0 w, ?_, ?_, ?_⟩
      · rw [hzw]
        exact collapseNLAux_append_nl 0 hw hwlast
      · intro d hd
        cases hwc : w with
        | nil => exact absurd hwc hw
        | cons e w2 =>
          have hews : pyIsSpace e = false := hwh e (by rw [hwc]; rfl)
          have hene : (e == '\n') = false := by
            rw [beq_eq_false_iff_ne]
            intro hcon
            rw [hcon] at hews
            exact absurd hews (by decide)
          rw [hwc, collapseNLAux_cons, if_neg (by rw [hene]; exact Bool.false_ne_true)] at hd
          rw [show nlRun 0 = ([] : Text) from rfl, List.nil_append] at hd
          injection hd with hd2
          rw [← hd2]
          exact hews
      · intro d hd
        rcases getLast?_some_of_ne_nil hw with ⟨dd, hdd⟩
        have hv := collapseNLAux_getLast (hwlast dd hdd) 0 hdd
        rw [hv] at hd
        injection hd with hd2
        rw [← hd2]
        exact hwl dd hdd

/-- C1 counterexample: the normalizer is not idempotent. On the input
`a \n \n \nb` the first pass produces `a\n\n\nb\n`: the newline collapse
runs before the per-line trailing-whitespace strip, so stripping the
space-only lines recreates a run of three newlines, which a second pass
then collapses to two — `normalize (normalize x) ≠ normalize x`. -/
theorem normalize_not_idempotent :
    normalize (normalize ("a \n \n \nb".toList)) ≠ normalize ("a \n \n \nb".toList) := by
  decide

/-- C1 amended: two passes of the normalizer reach a fixed point — for
every input `x`, `normalize (normalize (normalize x)) =
normalize (normalize x)`, i.e. the normalizer is idempotent on the set of
once-normalized texts. -/
theorem normalize_twice_idempotent (x : Text) :
    normalize (normalize (normalize x)) = normalize (normalize x) := by
  have h1 : SemiNF (normalize x) := normalize_SemiNF x
  have h2 : normalize (normalize x) = collapseNewlines (normalize x) :=
    normalize_of_SemiNF h1
  have h3 : SemiNF (collapseNewlines (normalize x)) := collapseNewlines_SemiNF h1
  have h4 : normalize (collapseNewlines (normalize x)) =
      collapseNewlines (collapseNewlines (normalize x)) := normalize_of_SemiNF h3
  have h5 : occursB (['\n', '\n', '\n']) (collapseNewlines (normalize x)) = false :=
    collapseNLAux_noTriple (normalize x) 0
  have h6 : collapseNewlines (collapseNewlines (normalize x)) =
      collapseNewlines (normalize x) := collapseNewlines_id h5
  rw [h2, h4, h6, ← h2]

end AQC
